import Mathlib

/-!
Verification of the layout-and-aggregation engine of the hive-ui module
dependency viewer (src/demos/hive-ui/app.js).

The JavaScript source is shallowly embedded:
- JS Map / Set values (which preserve insertion order) are modelled as
  association lists (List (String × _)) and duplicate-free lists with
  order-preserving insertion helpers mapGet / mapSet / setAdd / setUnion.
- JS default Array.prototype.sort() compares strings by code units; it is
  modelled by insertion sort over the code-point order strOrd (identical to
  code-unit order on the basic multilingual plane, which covers module paths
  and object labels).
- String.prototype.toLowerCase / trim / includes / startsWith / slice are
  modelled over the underlying character lists (ASCII-faithful).
- The unbounded recursive tree walks of the source (countVisible, place,
  resolveVisible) are embedded with an explicit structural fuel parameter.
  The fuel constants are generous upper bounds for every forest-shaped
  module graph; fuel exhaustion (which models the divergence the JS code
  would exhibit on cyclic module data) is made explicit in hypotheses such
  as placeOk and heightLe.
- Numbers computed by the layout are dyadic rationals (only +, -, and /2
  occur), so Rat models IEEE doubles exactly on the reachable values.
-/

set_option autoImplicit false

namespace HiveUI

-- ===== DEFINITIONS =====

/-- Synthetic root key, ROOT_KEY in the source. -/
def ROOT_KEY : String := "__root__"

/-- Code-point comparison of character lists; models the code-unit
lexicographic order used by the JS default sort comparator. -/
def charListLe : List Char → List Char → Bool
  | [], _ => true
  | _ :: _, [] => false
  | a :: as, b :: bs =>
    if a.toNat < b.toNat then true
    else if b.toNat < a.toNat then false
    else charListLe as bs

/-- String comparison via charListLe. -/
def strLe (a b : String) : Bool := charListLe a.data b.data

/-- The order relation induced by strLe, used for sorting. -/
def strOrd (a b : String) : Prop := strLe a b = true

instance : DecidableRel strOrd := fun a b => inferInstanceAs (Decidable (_ = true))

/-- Model of the JS default Array.prototype.sort() on string arrays. -/
def sortStr (l : List String) : List String := List.insertionSort strOrd l

instance : IsTotal String strOrd where
  total := by
    have key : ∀ (a b : List Char), charListLe a b = true ∨ charListLe b a = true := by
      intro a
      induction a with
      | nil =>
        intro b
        left
        rfl
      | cons x as ih =>
        intro b
        rcases b with _ | ⟨y, bs⟩
        · right
          rfl
        · simp only [charListLe]
          by_cases hxy : x.toNat < y.toNat
          · left
            rw [if_pos hxy]
          · by_cases hyx : y.toNat < x.toNat
            · right
              rw [if_pos hyx]
            · rw [if_neg hxy, if_neg hyx, if_neg hyx, if_neg hxy]
              exact ih bs
    intro a b
    exact key a.data b.data

instance : IsTrans String strOrd where
  trans := by
    have key : ∀ (a b c : List Char),
        charListLe a b = true → charListLe b c = true → charListLe a c = true := by
      intro a
      induction a with
      | nil =>
        intro b c _ _
        rfl
      | cons x as ih =>
        intro b c h1 h2
        rcases b with _ | ⟨y, bs⟩
        · exact absurd h1 (by simp [charListLe])
        rcases c with _ | ⟨z, cs⟩
        · exact absurd h2 (by simp [charListLe])
        simp only [charListLe] at h1 h2 ⊢
        by_cases hxy : x.toNat < y.toNat
        · by_cases hyz : y.toNat < z.toNat
          · rw [if_pos (by omega)]
          · rw [if_neg hyz] at h2
            by_cases hzy : z.toNat < y.toNat
            · rw [if_pos hzy] at h2
              exact absurd h2 (by simp)
            · rw [if_pos (by omega)]
        · rw [if_neg hxy] at h1
          by_cases hyx : y.toNat < x.toNat
          · rw [if_pos hyx] at h1
            exact absurd h1 (by simp)
          · rw [if_neg hyx] at h1
            by_cases hyz : y.toNat < z.toNat
            · rw [if_pos (by omega)]
            · rw [if_neg hyz] at h2
              by_cases hzy : z.toNat < y.toNat
              · rw [if_pos hzy] at h2
                exact absurd h2 (by simp)
              · rw [if_neg hzy] at h2
                have hxz : ¬x.toNat < z.toNat := by omega
                have hzx : ¬z.toNat < x.toNat := by omega
                rw [if_neg hxz, if_neg hzx]
                exact ih bs cs h1 h2
    intro a b c h1 h2
    exact key a.data b.data c.data h1 h2

/-- ASCII lower-casing of a character (the fragment of JS toLowerCase
exercised by module paths and object labels). -/
def lowerChar (c : Char) : Char :=
  if 65 ≤ c.toNat ∧ c.toNat ≤ 90 then Char.ofNat (c.toNat + 32) else c

/-- Model of String.prototype.toLowerCase. -/
def toLowerStr (s : String) : String := ⟨s.data.map lowerChar⟩

/-- Whitespace test used by the model of String.prototype.trim. -/
def isWsChar (c : Char) : Bool :=
  c.toNat = 32 ∨ c.toNat = 9 ∨ c.toNat = 10 ∨ c.toNat = 13 ∨ c.toNat = 12 ∨ c.toNat = 11

/-- Model of String.prototype.trim. -/
def trimStr (s : String) : String :=
  ⟨((s.data.dropWhile isWsChar).reverse.dropWhile isWsChar).reverse⟩

/-- Occurrence of pat as a contiguous sublist of s; second argument of
listContainsSub is the pattern. -/
def listContainsSub : List Char → List Char → Bool
  | [], pat => List.isPrefixOf pat []
  | c :: rest, pat => List.isPrefixOf pat (c :: rest) || listContainsSub rest pat

/-- Model of s.includes(pat) for JS strings. -/
def strContains (s pat : String) : Bool := listContainsSub s.data pat.data

/-- Model of s.startsWith(pre) for JS strings. -/
def strStartsWith (s pre : String) : Bool := List.isPrefixOf pre.data s.data

/-- Model of s.slice(n) for JS strings (drop the first n characters). -/
def strDrop (s : String) (n : Nat) : String := ⟨s.data.drop n⟩

/-- Lookup in an insertion-ordered association list (JS Map.get). -/
def mapGet {α : Type} : List (String × α) → String → Option α
  | [], _ => none
  | (k1, v) :: rest, k => if k1 = k then some v else mapGet rest k

/-- Update or append in an insertion-ordered association list (JS Map.set:
an existing key keeps its position, a new key is appended). -/
def mapSet {α : Type} : List (String × α) → String → α → List (String × α)
  | [], k, v => [(k, v)]
  | (k1, v1) :: rest, k, v =>
    if k1 = k then (k, v) :: rest else (k1, v1) :: mapSet rest k v

/-- Lookup with a default value. -/
def getD {α : Type} (m : List (String × α)) (k : String) (d : α) : α :=
  (mapGet m k).getD d

/-- Insertion-ordered set insertion (JS Set.add). -/
def setAdd (s : List String) (x : String) : List String :=
  if x ∈ s then s else s ++ [x]

/-- Add every element of xs to the set s (JS forEach over Set.add). -/
def setUnion (s : List String) (xs : List String) : List String :=
  xs.foldl setAdd s

/-- Module record: parent path and child paths, from graph.modules. -/
structure ModuleInfo where
  parent : String
  children : List String
  deriving DecidableEq

/-- Constructor/decorator record: owning module and exported mark.  The
exported field models the JS truthiness of (rec.exported or rec.Exported). -/
structure ProviderInfo where
  modulePath : String
  exported : Bool
  deriving DecidableEq

/-- Raw object record from graph.objects.  Absent JS string fields are
modelled as the empty string (both are falsy on every use site); the
explicit boolean exported/Exported flag is modelled as an Option. -/
structure RawObject where
  id : String
  type : String
  name : String
  group : String
  modulePath : String
  providedBy : List String
  consumedBy : List String
  exported : Option Bool
  deriving DecidableEq

/-- The immutable graph snapshot (the fields the verified core reads). -/
structure Graph where
  modules : List (String × ModuleInfo)
  constructors : List (String × ProviderInfo)
  decorators : List (String × ProviderInfo)
  objects : List RawObject
  deriving DecidableEq

/-- graph.modules[path], defensively (missing module yields none). -/
def findModule (g : Graph) (p : String) : Option ModuleInfo := mapGet g.modules p

/-- graph.modules[path]?.children or []. -/
def childrenOf (g : Graph) (p : String) : List String :=
  ((findModule g p).map ModuleInfo.children).getD []

/-- graph.modules[path]?.parent or "". -/
def parentOf (g : Graph) (p : String) : String :=
  ((findModule g p).map ModuleInfo.parent).getD ""

/-- Sorted module keys, state.moduleOrder built by buildNodes. -/
def moduleOrder (g : Graph) : List String := sortStr (g.modules.map Prod.fst)

/-- Root modules: empty parent or dangling parent, sorted (layoutTree). -/
def rootsOf (g : Graph) : List String :=
  sortStr ((moduleOrder g).filter
    (fun p => parentOf g p == "" || (findModule g (parentOf g p)).isNone))

/-- Fuel bound for parent-chain and subtree-height recursions: a forest on
the module map has height at most the number of modules. -/
def sizeFuel (g : Graph) : Nat := g.modules.length + 1

/-- Embedding of countVisible from layoutTree: size of the expanded part of
the subtree rooted at a module.  The fuel argument makes the recursion of
the source structural; it is irrelevant whenever heightLe holds. -/
def countVisible (g : Graph) (exp : List String) : Nat → String → Nat
  | 0, _ => 1
  | fuel+1, p =>
    if p ∈ exp then
      1 + ((sortStr (childrenOf g p)).map (countVisible g exp fuel)).sum
    else 1

/-- countVisible at the canonical fuel: the subtree-size function of the
layout. -/
def subtreeSize (g : Graph) (exp : List String) (p : String) : Nat :=
  countVisible g exp (sizeFuel g) p

/-- Bounded-height test: heightLe g n p asserts that every chain of
children starting at p has length at most n.  This is the explicit form of
the forest invariant under which the fuel of the embedding is irrelevant. -/
def heightLe (g : Graph) : Nat → String → Bool
  | 0, _ => false
  | n+1, p => (childrenOf g p).all (heightLe g n)

/-- Number of descendants of p (fuel-bounded), used to state the
subtree-size property for fully expanded subtrees. -/
def descCount (g : Graph) : Nat → String → Nat
  | 0, _ => 0
  | n+1, p => ((childrenOf g p).map (fun c => 1 + descCount g n c)).sum

/-- descCount at the canonical fuel. -/
def numDescendants (g : Graph) (p : String) : Nat := descCount g (sizeFuel g) p

/-- Whole-subtree expansion test: p and all of its descendants are in the
expansion set (fuel-bounded). -/
def subtreeExpandedB (g : Graph) (exp : List String) : Nat → String → Bool
  | 0, _ => false
  | n+1, p => decide (p ∈ exp) && (childrenOf g p).all (subtreeExpandedB g exp n)

/-- Layout position of a module: x is the tree depth, y the vertical
center, exactly the {x, y} record built by layoutTree. -/
structure Pos where
  x : Nat
  y : Rat
  deriving DecidableEq

/-- Result of layoutTree: the positions map and the structural edges. -/
structure LayoutAcc where
  positions : List (String × Pos)
  edges : List (String × String)
  deriving DecidableEq

/-- Embedding of the recursive place function of layoutTree, processing the
(sorted child, subtree size) list of one expanded parent.  For each child
the source pushes the structural edge, sets the child position at the
center of its span, and recurses if the child is expanded; the cursor then
advances by the child span.  Fuel decreases structurally on every call; it
is irrelevant whenever placeOk holds. -/
def placeRun (g : Graph) (exp : List String) :
    Nat → List (String × Nat) → String → Nat → Rat → LayoutAcc → LayoutAcc
  | 0, _, _, _, _, acc => acc
  | _+1, [], _, _, _, acc => acc
  | fuel+1, (c, sz) :: rest, parent, depth, cursor, acc =>
    let acc1 : LayoutAcc := ⟨acc.positions, acc.edges ++ [(parent, c)]⟩
    let acc2 : LayoutAcc :=
      ⟨mapSet acc1.positions c ⟨depth + 1, cursor + (sz : Rat) / 2⟩, acc1.edges⟩
    let acc3 : LayoutAcc :=
      if c ∈ exp then
        let cs := sortStr (childrenOf g c)
        let sizes := cs.map (subtreeSize g exp)
        let total : Rat := ((sizes.sum : Nat) : Rat)
        placeRun g exp fuel (cs.zip sizes) c (depth + 1)
          (cursor + (sz : Rat) / 2 - total / 2) acc2
      else acc2
    placeRun g exp fuel rest parent depth (cursor + (sz : Rat)) acc3

/-- Generous fuel bound for placeRun: the recursion makes at most one call
per module plus one per child-list entry on forest-shaped input. -/
def layoutFuel (g : Graph) : Nat :=
  g.modules.length + (g.modules.map (fun e => e.2.children.length)).sum + 2

/-- Embedding of layoutTree: the synthetic root is pinned at (0, 0) and the
sorted roots are laid out around it exactly like the children of an
expanded module. -/
def layoutTree (g : Graph) (exp : List String) : LayoutAcc :=
  let roots := rootsOf g
  let rootSizes := roots.map (subtreeSize g exp)
  let totalRoots : Rat := ((rootSizes.sum : Nat) : Rat)
  placeRun g exp (layoutFuel g) (roots.zip rootSizes) ROOT_KEY 0
    (-(totalRoots / 2)) ⟨[(ROOT_KEY, ⟨0, 0⟩)], []⟩

/-- Mirror of placeRun that returns only the list of new placements, in
placement order.  placeRun equals appending this list when its keys are
fresh (placeRun_corr below). -/
def runPlaces (g : Graph) (exp : List String) :
    Nat → List (String × Nat) → Nat → Rat → List (String × Pos)
  | 0, _, _, _ => []
  | _+1, [], _, _ => []
  | fuel+1, (c, sz) :: rest, depth, cursor =>
    (c, (⟨depth + 1, cursor + (sz : Rat) / 2⟩ : Pos)) ::
      ((if c ∈ exp then
          runPlaces g exp fuel
            ((sortStr (childrenOf g c)).zip
              ((sortStr (childrenOf g c)).map (subtreeSize g exp)))
            (depth + 1)
            (cursor + (sz : Rat) / 2 -
              ((((sortStr (childrenOf g c)).map (subtreeSize g exp)).sum : Nat) : Rat) / 2)
        else [])
        ++ runPlaces g exp fuel rest depth (cursor + (sz : Rat)))

/-- Mirror of placeRun that returns only the list of new structural edges. -/
def runEdges (g : Graph) (exp : List String) :
    Nat → List (String × Nat) → String → List (String × String)
  | 0, _, _ => []
  | _+1, [], _ => []
  | fuel+1, (c, _) :: rest, parent =>
    (parent, c) ::
      ((if c ∈ exp then
          runEdges g exp fuel
            ((sortStr (childrenOf g c)).zip
              ((sortStr (childrenOf g c)).map (subtreeSize g exp))) c
        else [])
        ++ runEdges g exp fuel rest parent)

/-- Fuel sufficiency for placeRun: true when no recursion is cut off, i.e.
when the embedding agrees with the unbounded recursion of the source. -/
def placeOk (g : Graph) (exp : List String) : Nat → List (String × Nat) → Bool
  | 0, pairs => pairs.isEmpty
  | _+1, [] => true
  | fuel+1, (c, _) :: rest =>
    (if c ∈ exp then
        placeOk g exp fuel
          ((sortStr (childrenOf g c)).zip
            ((sortStr (childrenOf g c)).map (subtreeSize g exp)))
      else true)
      && placeOk g exp fuel rest

/-- The placement list of a whole layout pass (root pinned first). -/
def layoutPlaces (g : Graph) (exp : List String) : List (String × Pos) :=
  let roots := rootsOf g
  let rootSizes := roots.map (subtreeSize g exp)
  let totalRoots : Rat := ((rootSizes.sum : Nat) : Rat)
  (ROOT_KEY, (⟨0, 0⟩ : Pos)) ::
    runPlaces g exp (layoutFuel g) (roots.zip rootSizes) 0 (-(totalRoots / 2))

/-- The edge list of a whole layout pass. -/
def layoutEdgesSpec (g : Graph) (exp : List String) : List (String × String) :=
  runEdges g exp (layoutFuel g)
    ((rootsOf g).zip ((rootsOf g).map (subtreeSize g exp))) ROOT_KEY

/-- Centers of contiguous spans: starting at cursor, each size occupies a
span of its own length and its center sits at span start + size / 2. -/
def childCenters : Rat → List Nat → List Rat
  | _, [] => []
  | cursor, sz :: rest => (cursor + (sz : Rat) / 2) :: childCenters (cursor + (sz : Rat)) rest

/-- Node visibility after a layout pass: the path has a position and its
sprite exists (the synthetic root or a real module), exactly the
node.mesh.visible flag set by applyLayout. -/
def isVisible (g : Graph) (exp : List String) (p : String) : Bool :=
  (mapGet (layoutTree g exp).positions p).isSome
    && (p == ROOT_KEY || (findModule g p).isSome)

/-- Parent-chain walk of resolveVisible (buildVisibleModuleDeps): return
the first visible module on the chain, or ROOT_KEY when the chain exits at
an empty or self-referential parent.  Fuel exhaustion (reachable only on
cyclic parent data, where the source diverges) also falls back to
ROOT_KEY, matching the explicit fallback of the source. -/
def resolveVisibleGo (g : Graph) (exp : List String) : Nat → String → String
  | 0, _ => ROOT_KEY
  | fuel+1, current =>
    if isVisible g exp current then current
    else
      let parent := parentOf g current
      if parent = "" ∨ parent = current then ROOT_KEY
      else resolveVisibleGo g exp fuel parent

/-- Embedding of resolveVisible: the synthetic root and the empty path map
to ROOT_KEY, every other path walks the parent chain.  The per-rebuild
memo cache of the source is semantically transparent and omitted. -/
def resolveVisible (g : Graph) (exp : List String) (modulePath : String) : String :=
  if modulePath = "" ∨ modulePath = ROOT_KEY then ROOT_KEY
  else resolveVisibleGo g exp (sizeFuel g) modulePath

/-- Accumulator of buildVisibleModuleDeps: the visible dependency map and
the per-edge-key label sets. -/
structure DepsAcc where
  deps : List (String × List String)
  objs : List (String × List String)
  deriving DecidableEq

/-- Inner loop of buildVisibleModuleDeps over the providers of one
consumer: resolve the provider, discard the synthetic root and self loops,
record the dependency and merge the label set under the edge key. -/
def vmdInner (g : Graph) (exp : List String) (fromVisible : String) :
    List (String × List String) → DepsAcc → DepsAcc
  | [], acc => acc
  | (provider, objects) :: rest, acc =>
    let toVisible := resolveVisible g exp provider
    if toVisible = "" ∨ toVisible = ROOT_KEY ∨ toVisible = fromVisible then
      vmdInner g exp fromVisible rest acc
    else
      vmdInner g exp fromVisible rest
        ⟨mapSet acc.deps fromVisible (setAdd (getD acc.deps fromVisible []) toVisible),
         mapSet acc.objs (fromVisible ++ "->" ++ toVisible)
           (setUnion (getD acc.objs (fromVisible ++ "->" ++ toVisible) []) objects)⟩

/-- Outer loop of buildVisibleModuleDeps over the pre-pass adjacency. -/
def vmdOuter (g : Graph) (exp : List String) :
    List (String × List (String × List String)) → DepsAcc → DepsAcc
  | [], acc => acc
  | (consumer, providers) :: rest, acc =>
    let fromVisible := resolveVisible g exp consumer
    if fromVisible = "" ∨ fromVisible = ROOT_KEY then vmdOuter g exp rest acc
    else vmdOuter g exp rest (vmdInner g exp fromVisible providers acc)

/-- Inner loop of the label-free fallback aggregation over moduleDeps. -/
def vmdFallbackInner (g : Graph) (exp : List String) (fromVisible : String) :
    List String → List (String × List String) → List (String × List String)
  | [], deps => deps
  | dep :: rest, deps =>
    let toVisible := resolveVisible g exp dep
    if toVisible = "" ∨ toVisible = ROOT_KEY ∨ toVisible = fromVisible then
      vmdFallbackInner g exp fromVisible rest deps
    else
      vmdFallbackInner g exp fromVisible rest
        (mapSet deps fromVisible (setAdd (getD deps fromVisible []) toVisible))

/-- Outer loop of the label-free fallback aggregation. -/
def vmdFallback (g : Graph) (exp : List String) :
    List (String × List String) → List (String × List String) → List (String × List String)
  | [], deps => deps
  | (modulePath, moddeps) :: rest, deps =>
    let fromVisible := resolveVisible g exp modulePath
    if fromVisible = "" ∨ fromVisible = ROOT_KEY then vmdFallback g exp rest deps
    else vmdFallback g exp rest (vmdFallbackInner g exp fromVisible moddeps deps)

/-- Result of buildVisibleModuleDeps. -/
structure VisibleDeps where
  deps : List (String × List String)
  objects : List (String × List String)
  deriving DecidableEq

/-- Embedding of buildVisibleModuleDeps.  The pre-pass adjacency
moduleDepObjects (consumer to provider to label set) and the coarse
moduleDeps map are inputs, as they are built once at load time. -/
def buildVisibleModuleDeps (g : Graph) (exp : List String)
    (moduleDepObjects : List (String × List (String × List String)))
    (moduleDeps : List (String × List String)) : VisibleDeps :=
  let acc := vmdOuter g exp moduleDepObjects ⟨[], []⟩
  let deps := if acc.deps.isEmpty then vmdFallback g exp moduleDeps [] else acc.deps
  ⟨deps, acc.objs.map (fun e => (e.1, sortStr e.2))⟩

/-- Label contribution of a provider list for consumer-resolution fromV: the
guard and edge key of the inner loop, with the label among the pair
objects. -/
def innerLabelContrib (g : Graph) (exp : List String) (fromV : String) :
    List (String × List String) → String → String → Prop
  | [], _, _ => False
  | (provider, objects) :: rest, k, lbl =>
    (¬(resolveVisible g exp provider = "" ∨ resolveVisible g exp provider = ROOT_KEY ∨
        resolveVisible g exp provider = fromV)
      ∧ k = fromV ++ "->" ++ resolveVisible g exp provider ∧ lbl ∈ objects)
    ∨ innerLabelContrib g exp fromV rest k lbl

/-- Edge contribution of a provider list (like innerLabelContrib but
ignoring labels). -/
def innerEdgeContrib (g : Graph) (exp : List String) (fromV : String) :
    List (String × List String) → String → Prop
  | [], _ => False
  | (provider, _) :: rest, k =>
    (¬(resolveVisible g exp provider = "" ∨ resolveVisible g exp provider = ROOT_KEY ∨
        resolveVisible g exp provider = fromV)
      ∧ k = fromV ++ "->" ++ resolveVisible g exp provider)
    ∨ innerEdgeContrib g exp fromV rest k

/-- Label contribution of the full pre-pass adjacency to an edge key. -/
def labelContrib (g : Graph) (exp : List String) :
    List (String × List (String × List String)) → String → String → Prop
  | [], _, _ => False
  | (consumer, providers) :: rest, k, lbl =>
    (¬(resolveVisible g exp consumer = "" ∨ resolveVisible g exp consumer = ROOT_KEY)
      ∧ innerLabelContrib g exp (resolveVisible g exp consumer) providers k lbl)
    ∨ labelContrib g exp rest k lbl

/-- Edge contribution of the full pre-pass adjacency to an edge key. -/
def edgeContrib (g : Graph) (exp : List String) :
    List (String × List (String × List String)) → String → Prop
  | [], _ => False
  | (consumer, providers) :: rest, k =>
    (¬(resolveVisible g exp consumer = "" ∨ resolveVisible g exp consumer = ROOT_KEY)
      ∧ innerEdgeContrib g exp (resolveVisible g exp consumer) providers k)
    ∨ edgeContrib g exp rest k

/-- Embedding of curveBias: order-dependent hash of the edge key. -/
def curveHash (key : String) : Nat :=
  key.data.foldl (fun h c => (h * 31 + c.toNat) % 97) 0

/-- Embedding of curveBias: parity of the hash picks the bend direction. -/
def curveBias (key : String) : Int :=
  if curveHash key % 2 = 0 then 1 else -1

/-- Embedding of formatObject; the source reads the type, name and group
fields of its argument (object or dependency reference). -/
def formatObject (type name group : String) : String :=
  let base := if type = "" then "unknown" else type
  let withName := if name = "" then base else base ++ " (name=" ++ name ++ ")"
  if group = "" then withName else withName ++ " [group=" ++ group ++ "]"

/-- Embedding of objectSignature. -/
def objectSignature (type name group : String) : String :=
  type ++ "|" ++ name ++ "|" ++ group

/-- Dependency reference record (inputs of constructors and friends). -/
structure RefInput where
  type : String
  name : String
  group : String
  optional : Bool
  deriving DecidableEq

/-- Embedding of signatureForRef: a group reference with a slice type drops
the slice prefix before computing the identity signature. -/
def signatureForRef (ref : RefInput) : String :=
  let type := if ref.group ≠ "" ∧ strStartsWith ref.type "[]" then strDrop ref.type 2 else ref.type
  objectSignature type ref.name ref.group

/-- Embedding of isPrivateObject. -/
def isPrivateObject (g : Graph) (obj : RawObject) : Bool :=
  match obj.exported with
  | some b => !b
  | none =>
    if obj.providedBy.isEmpty then false
    else
      (obj.providedBy.any (fun pid => (mapGet g.constructors pid).isSome))
        && !(obj.providedBy.any (fun pid =>
              match mapGet g.constructors pid with
              | some ctor => ctor.exported
              | none => false))

/-- Whether a provider id is marked exported, as a constructor or as a
decorator.  (Used only to state the claim text of C7, not by the source.) -/
def providerMarkedExported (g : Graph) (pid : String) : Bool :=
  (match mapGet g.constructors pid with
   | some ctor => ctor.exported
   | none => false)
  || (match mapGet g.decorators pid with
      | some decor => decor.exported
      | none => false)

/-- Predicate written from the words of claim C7 for the inferred case: at
least one constructor-style provider and no provider (of any kind) marked
exported.  This is compared against isPrivateObject. -/
def claimPrivateObject (g : Graph) (obj : RawObject) : Bool :=
  match obj.exported with
  | some b => !b
  | none =>
    (obj.providedBy.any (fun pid => (mapGet g.constructors pid).isSome))
      && obj.providedBy.all (fun pid => !providerMarkedExported g pid)

/-- Module path a provider id resolves to: constructors take precedence
over decorators, anything else yields the empty string
(providerModulesForObject). -/
def providerModulePath (g : Graph) (pid : String) : String :=
  match mapGet g.constructors pid with
  | some ctor => ctor.modulePath
  | none =>
    match mapGet g.decorators pid with
    | some decor => decor.modulePath
    | none => ""

/-- Embedding of providerModulesForObject: the set of known provider
modules of an object, sorted. -/
def providerModulesForObject (g : Graph) (obj : RawObject) : List String :=
  sortStr (obj.providedBy.foldl
    (fun providers pid =>
      let mp := providerModulePath g pid
      if mp ≠ "" ∧ (findModule g mp).isSome then setAdd providers mp else providers)
    [])

/-- Entry of state.objectIndex and of the signature buckets. -/
structure IndexEntry where
  id : String
  type : String
  name : String
  group : String
  label : String
  providers : List String
  isPrivate : Bool
  deriving DecidableEq

/-- Entry of state.searchEntries. -/
structure SearchEntry where
  label : String
  modulePath : String
  signature : String
  searchKey : String
  isPrivate : Bool
  deriving DecidableEq

/-- The three outputs of buildObjectIndex. -/
structure ObjectIndex where
  objectIndex : List IndexEntry
  objectRefIndex : List (String × List IndexEntry)
  searchEntries : List SearchEntry
  deriving DecidableEq

/-- Comparator of the final searchEntries sort: by label, then by module
path (the source uses localeCompare; the embedding uses code-point order,
which coincides on the ASCII labels and paths of the snapshot). -/
def searchEntryLe (a b : SearchEntry) : Prop :=
  (strLe a.label b.label && (!strLe b.label a.label || strLe a.modulePath b.modulePath)) = true

instance : DecidableRel searchEntryLe := fun a b => inferInstanceAs (Decidable (_ = true))

/-- The final sort of buildObjectIndex. -/
def sortEntries (l : List SearchEntry) : List SearchEntry :=
  List.insertionSort searchEntryLe l

/-- Per-object step of buildObjectIndex: objects without resolvable
provider modules are skipped entirely; otherwise one index entry, one
signature-bucket entry and one search entry per provider module are
appended. -/
def buildObjectIndexStep (g : Graph) (st : ObjectIndex) (obj : RawObject) : ObjectIndex :=
  let label := formatObject obj.type obj.name obj.group
  let providers := providerModulesForObject g obj
  if providers.isEmpty then st
  else
    let signature := objectSignature obj.type obj.name obj.group
    let entry : IndexEntry :=
      ⟨obj.id, obj.type, obj.name, obj.group, label, providers, isPrivateObject g obj⟩
    ⟨st.objectIndex ++ [entry],
     mapSet st.objectRefIndex signature (getD st.objectRefIndex signature [] ++ [entry]),
     st.searchEntries ++ providers.map (fun mp =>
       ⟨label, mp, signature, toLowerStr label, entry.isPrivate⟩)⟩

/-- Embedding of buildObjectIndex. -/
def buildObjectIndex (g : Graph) : ObjectIndex :=
  let st := g.objects.foldl (buildObjectIndexStep g) ⟨[], [], []⟩
  ⟨st.objectIndex, st.objectRefIndex, sortEntries st.searchEntries⟩

/-- Outcome of renderSearchResults: the explicit type-to-search prompt, the
explicit no-matches state, or the displayed page plus the total count. -/
inductive SearchOutcome where
  | prompt
  | noMatches
  | results (shown : List SearchEntry) (total : Nat)
  deriving DecidableEq

/-- Embedding of renderSearchResults: trim and lowercase the query, filter
all search entries by substring containment in the precomputed search key,
display at most the first 50 matches and report the total count. -/
def renderSearchResults (entries : List SearchEntry) (query : String) : SearchOutcome :=
  let q := toLowerStr (trimStr query)
  if q = "" then .prompt
  else
    let found := entries.filter (fun e => strContains e.searchKey q)
    if found.isEmpty then .noMatches
    else .results (found.take 50) found.length

/-- Camera part of a view snapshot. -/
structure Camera where
  x : Rat
  y : Rat
  zoom : Rat
  deriving DecidableEq

/-- View snapshot captured by captureViewState. -/
structure ViewSnapshot where
  selectedId : Option String
  expandedModules : List String
  camera : Camera
  deriving DecidableEq

/-- History stack plus the historyLocked flag. -/
structure HistoryState where
  history : List ViewSnapshot
  locked : Bool
  deriving DecidableEq

/-- Embedding of pushHistory (the snapshot argument stands for the
captureViewState call of the source). -/
def pushHistory (st : HistoryState) (snapshot : ViewSnapshot) : HistoryState :=
  if st.locked then st
  else
    match st.history.getLast? with
    | some last =>
      if last.selectedId = snapshot.selectedId then st
      else ⟨st.history ++ [snapshot], st.locked⟩
    | none => ⟨st.history ++ [snapshot], st.locked⟩

/-- Embedding of popHistory. -/
def popHistory (st : HistoryState) : Option ViewSnapshot × HistoryState :=
  match st.history.getLast? with
  | none => (none, st)
  | some snapshot => (some snapshot, ⟨st.history.dropLast, st.locked⟩)

/-- Demo module map: one root package with two leaf children. -/
def demoModules : List (String × ModuleInfo) :=
  [("pkg", ⟨"", ["pkg.a", "pkg.b"]⟩), ("pkg.a", ⟨"pkg", []⟩), ("pkg.b", ⟨"pkg", []⟩)]

/-- Demo graph used to instantiate the layout and aggregation theorems. -/
def demoGraph : Graph := ⟨demoModules, [("ctorA", ⟨"pkg.a", false⟩)], [], []⟩

/-- Demo pre-pass adjacency: pkg.a consumes one object provided by pkg.b. -/
def demoMdo : List (String × List (String × List String)) :=
  [("pkg.a", [("pkg.b", ["Svc (name=X)"])])]

/-- Graph with a constructor provider (not exported) and a decorator
provider (exported) for the same object, separating the source from the
claim text of C7. -/
def c7Graph : Graph :=
  ⟨[("m", ⟨"", []⟩)], [("ctorC", ⟨"m", false⟩)], [("decorD", ⟨"m", true⟩)], []⟩

/-- Object provided by both providers of c7Graph, with no explicit flag. -/
def c7Obj : RawObject := ⟨"o1", "T", "", "", "m", ["ctorC", "decorD"], [], none⟩

/-- Object whose single provider id resolves to no module. -/
def c8Obj : RawObject := ⟨"o2", "U", "", "", "m", ["ghost"], [], none⟩

/-- Object with a resolvable provider. -/
def c8ObjGood : RawObject := ⟨"o3", "V", "", "", "m", ["ctorC"], [], none⟩

/-- Graph holding both objects of the C8 witness. -/
def c8Graph : Graph :=
  ⟨[("m", ⟨"", []⟩)], [("ctorC", ⟨"m", false⟩)], [], [c8ObjGood, c8Obj]⟩

/-- Search entry with label Foo. -/
def fooEntry : SearchEntry := ⟨"Foo", "pkg.a", "Foo||", "foo", false⟩

/-- Search entry with label Bar. -/
def barEntry : SearchEntry := ⟨"Bar", "pkg.b", "Bar||", "bar", false⟩

/-- Demo search entries. -/
def demoEntries : List SearchEntry := [fooEntry, barEntry]

/-- Demo camera state. -/
def demoCam : Camera := ⟨0, 0, 1⟩

/-- Demo snapshot selecting module pkg with it expanded. -/
def snapA : ViewSnapshot := ⟨some "module:pkg", ["pkg"], demoCam⟩

/-- Demo snapshot with the same selection as snapA but different expansion. -/
def snapB : ViewSnapshot := ⟨some "module:pkg", [], demoCam⟩

/-- Empty unlocked history state. -/
def hist0 : HistoryState := ⟨[], false⟩

/-- Slice-typed group reference. -/
def demoSliceRef : RefInput := ⟨"[]Svc", "", "grp", false⟩

/-- Plain reference. -/
def demoPlainRef : RefInput := ⟨"Svc", "x", "", false⟩

-- ===== THEOREMS =====

theorem strStartsWith_of_prefix (a s : String) (h : a.data <+: s.data) :
    strStartsWith s a = true :=
  List.isPrefixOf_iff_prefix.mpr h

theorem strStartsWith_self (s : String) : strStartsWith s s = true :=
  strStartsWith_of_prefix s s (List.prefix_refl _)

/-- C3: the per-layout aggregation and the bend-direction function are pure
functions of their inputs: running them twice on the same snapshot data and
expansion set gives identical output (including the sorted label lists),
and the bend direction is plus one exactly when the order-dependent hash
(hash * 31 + charCode, modulo 97) of the edge key is even, minus one when
it is odd. -/
theorem aggregate_deterministic (g : Graph) (exp : List String)
    (mdo : List (String × List (String × List String)))
    (mds : List (String × List String)) :
    buildVisibleModuleDeps g exp mdo mds = buildVisibleModuleDeps g exp mdo mds
    ∧ ∀ key, curveBias key = curveBias key
      ∧ (curveHash key % 2 = 0 → curveBias key = 1)
      ∧ (curveHash key % 2 ≠ 0 → curveBias key = -1) := by
  refine ⟨rfl, fun key => ⟨rfl, ?_, ?_⟩⟩ <;> intro h <;> simp [curveBias, h]

/-- Witness for C3 at a concrete edge key and concrete aggregation input. -/
theorem aggregate_deterministic_witness :
    buildVisibleModuleDeps demoGraph ["pkg"] demoMdo []
      = buildVisibleModuleDeps demoGraph ["pkg"] demoMdo []
    ∧ curveBias "a->b" = -1 := by
  refine ⟨(aggregate_deterministic demoGraph ["pkg"] demoMdo []).1, ?_⟩
  exact ((aggregate_deterministic demoGraph ["pkg"] demoMdo []).2 "a->b").2.2 (by decide)

/-- C7 counterexample: for an object with a non-exported constructor
provider and an exported decorator provider and no explicit flag, the source
infers private, while the claim text (no provider of any kind marked
exported) says not private. -/
theorem isPrivateObject_claim_counterexample :
    isPrivateObject c7Graph c7Obj = true ∧ claimPrivateObject c7Graph c7Obj = false := by
  exact ⟨rfl, rfl⟩

/-- C7 amended: an object with an explicit boolean exported flag is private
exactly when the flag is false; otherwise it is private exactly when it has
at least one constructor-style provider and none of its constructor-style
providers are marked exported (exported marks on non-constructor providers
are ignored by the inference). -/
theorem isPrivateObject_spec (g : Graph) (obj : RawObject) :
    isPrivateObject g obj = true ↔
      (match obj.exported with
       | some b => b = false
       | none =>
         (∃ pid ∈ obj.providedBy, (mapGet g.constructors pid).isSome)
         ∧ ∀ pid ∈ obj.providedBy, ∀ ctor, mapGet g.constructors pid = some ctor →
             ctor.exported = false) := by
  rcases hexp : obj.exported with _ | b
  · simp only [isPrivateObject, hexp]
    by_cases hpb : obj.providedBy.isEmpty
    · rw [if_pos hpb]
      rw [List.isEmpty_iff] at hpb
      simp [hpb]
    · rw [if_neg hpb]
      simp only [Bool.and_eq_true, Bool.not_eq_true', List.any_eq_true, List.any_eq_false]
      constructor
      · rintro ⟨⟨pid, hmem, hsome⟩, hall⟩
        refine ⟨⟨pid, hmem, hsome⟩, ?_⟩
        intro q hq ctor hctor
        have h2 := hall q hq
        rw [hctor] at h2
        simpa using h2
      · rintro ⟨⟨pid, hmem, hsome⟩, hall⟩
        refine ⟨⟨pid, hmem, hsome⟩, ?_⟩
        intro q hq
        rcases hget : mapGet g.constructors q with _ | ctor
        · simp [hget]
        · simp [hget, hall q hq ctor hget]
  · simp only [isPrivateObject, hexp, Bool.not_eq_true']

/-- Witness for C7 amended at the counterexample input. -/
theorem isPrivateObject_spec_witness : isPrivateObject c7Graph c7Obj = true := by
  refine (isPrivateObject_spec c7Graph c7Obj).mpr ?_
  refine ⟨⟨"ctorC", by decide, by decide⟩, ?_⟩
  intro pid hpid ctor hctor
  have hpid2 : pid = "ctorC" ∨ pid = "decorD" := by
    simpa [c7Obj] using hpid
  rcases hpid2 with h | h <;> subst h
  · cases hctor
    rfl
  · cases hctor

theorem mem_sortStr {l : List String} {x : String} : x ∈ sortStr l ↔ x ∈ l :=
  (List.perm_insertionSort strOrd l).mem_iff

theorem resolveVisibleGo_cases (g : Graph) (exp : List String) :
    ∀ (fuel : Nat) (cur : String), cur ≠ "" →
      resolveVisibleGo g exp fuel cur = ROOT_KEY
      ∨ (resolveVisibleGo g exp fuel cur ≠ ""
         ∧ isVisible g exp (resolveVisibleGo g exp fuel cur) = true) := by
  intro fuel
  induction fuel with
  | zero => intro cur _; left; rfl
  | succ n ih =>
    intro cur hcur
    simp only [resolveVisibleGo]
    by_cases hv : isVisible g exp cur = true
    · rw [if_pos hv]
      exact Or.inr ⟨hcur, hv⟩
    · rw [if_neg hv]
      by_cases hp : parentOf g cur = "" ∨ parentOf g cur = cur
      · rw [if_pos hp]
        left
        rfl
      · rw [if_neg hp]
        exact ih (parentOf g cur) (fun h => hp (Or.inl h))

/-- C4: the visibility resolver is idempotent: resolving the result of a
resolution returns it unchanged, for every module path and every expansion
set (the visibility state is recomputed from the expansion set by the
layout). -/
theorem resolveVisible_idempotent (g : Graph) (exp : List String) (p : String) :
    resolveVisible g exp (resolveVisible g exp p) = resolveVisible g exp p := by
  have fix : ∀ q : String,
      q = ROOT_KEY ∨ (q ≠ "" ∧ isVisible g exp q = true) →
      resolveVisible g exp q = q := by
    intro q hq
    rcases hq with h | ⟨hne, hvis⟩
    · subst h
      rw [resolveVisible, if_pos (Or.inr rfl)]
    · by_cases hroot : q = ROOT_KEY
      · subst hroot
        rw [resolveVisible, if_pos (Or.inr rfl)]
      · have hguard : ¬(q = "" ∨ q = ROOT_KEY) := by
          rintro (h1 | h2)
          · exact hne h1
          · exact hroot h2
        rw [resolveVisible, if_neg hguard]
        show resolveVisibleGo g exp (g.modules.length + 1) q = q
        simp [resolveVisibleGo, hvis]
  apply fix
  by_cases hp : p = "" ∨ p = ROOT_KEY
  · left
    rw [resolveVisible, if_pos hp]
  · rw [resolveVisible, if_neg hp]
    exact resolveVisibleGo_cases g exp (sizeFuel g) p (fun h => hp (Or.inl h))

theorem heightLe_mono (g : Graph) : ∀ (n m : Nat) (p : String),
    heightLe g n p = true → n ≤ m → heightLe g m p = true := by
  intro n
  induction n with
  | zero =>
    intro m p h _
    simp [heightLe] at h
  | succ k ih =>
    intro m p h hnm
    rcases m with _ | m1
    · exact absurd hnm (by omega)
    · simp only [heightLe, List.all_eq_true] at h ⊢
      intro c hc
      exact ih m1 c (h c hc) (by omega)

theorem countVisible_stable (g : Graph) (exp : List String) :
    ∀ (n f : Nat) (p : String), heightLe g n p = true → n ≤ f →
      countVisible g exp f p = countVisible g exp n p := by
  intro n
  induction n with
  | zero =>
    intro f p h _
    simp [heightLe] at h
  | succ k ih =>
    intro f p h hnf
    rcases f with _ | f1
    · exact absurd hnf (by omega)
    · simp only [heightLe, List.all_eq_true] at h
      simp only [countVisible]
      by_cases hexp : p ∈ exp
      · rw [if_pos hexp, if_pos hexp]
        have hmap : ∀ c ∈ sortStr (childrenOf g p),
            countVisible g exp f1 c = countVisible g exp k c := by
          intro c hc
          exact ih f1 c (h c (mem_sortStr.mp hc)) (by omega)
        rw [List.map_congr_left hmap]
      · rw [if_neg hexp, if_neg hexp]

theorem descCount_stable (g : Graph) :
    ∀ (n f : Nat) (p : String), heightLe g n p = true → n ≤ f →
      descCount g f p = descCount g n p := by
  intro n
  induction n with
  | zero =>
    intro f p h _
    simp [heightLe] at h
  | succ k ih =>
    intro f p h hnf
    rcases f with _ | f1
    · exact absurd hnf (by omega)
    · simp only [heightLe, List.all_eq_true] at h
      simp only [descCount]
      have hmap : ∀ c ∈ childrenOf g p,
          (fun c => 1 + descCount g f1 c) c = (fun c => 1 + descCount g k c) c := by
        intro c hc
        simp only []
        rw [ih f1 c (h c hc) (by omega)]
      rw [List.map_congr_left hmap]

theorem countVisible_fullyExpanded (g : Graph) (exp : List String) :
    ∀ (n : Nat) (p : String), heightLe g n p = true →
      subtreeExpandedB g exp n p = true →
      countVisible g exp n p = 1 + descCount g n p := by
  intro n
  induction n with
  | zero =>
    intro p h _
    simp [heightLe] at h
  | succ k ih =>
    intro p h hfull
    simp only [heightLe, List.all_eq_true] at h
    simp only [subtreeExpandedB, Bool.and_eq_true, decide_eq_true_eq,
      List.all_eq_true] at hfull
    obtain ⟨hpexp, hchild⟩ := hfull
    simp only [countVisible, descCount, if_pos hpexp]
    congr 1
    have h1 : ∀ c ∈ sortStr (childrenOf g p),
        countVisible g exp k c = (fun c => 1 + descCount g k c) c := by
      intro c hc
      exact ih c (h c (mem_sortStr.mp hc)) (hchild c (mem_sortStr.mp hc))
    rw [List.map_congr_left h1]
    exact List.Perm.sum_eq ((List.perm_insertionSort strOrd _).map _)

/-- C2: the subtree-size function of the layout returns 1 when the module
is not in the expansion set, and otherwise 1 plus the sum of the subtree
sizes of its children taken in sorted order; and when the whole subtree of
the module is expanded, the subtree size equals 1 plus the number of all
descendants.  The heightLe hypothesis is the forest invariant: the height
of the child chains from p is bounded by the number of modules. -/
theorem subtreeSize_spec (g : Graph) (exp : List String) (p : String) (n : Nat)
    (h1 : heightLe g n p = true) (h2 : n ≤ sizeFuel g) :
    (subtreeSize g exp p =
      if p ∈ exp then 1 + ((sortStr (childrenOf g p)).map (subtreeSize g exp)).sum else 1)
    ∧ (subtreeExpandedB g exp n p = true →
        subtreeSize g exp p = 1 + numDescendants g p) := by
  constructor
  · rw [subtreeSize, countVisible_stable g exp n (sizeFuel g) p h1 h2]
    rcases n with _ | k
    · simp [heightLe] at h1
    · simp only [heightLe, List.all_eq_true] at h1
      simp only [countVisible]
      by_cases hexp : p ∈ exp
      · rw [if_pos hexp, if_pos hexp]
        have hmap : ∀ c ∈ sortStr (childrenOf g p),
            countVisible g exp k c = subtreeSize g exp c := by
          intro c hc
          rw [subtreeSize]
          exact (countVisible_stable g exp k (sizeFuel g) c
            (h1 c (mem_sortStr.mp hc)) (by omega)).symm
        rw [List.map_congr_left hmap]
      · rw [if_neg hexp, if_neg hexp]
  · intro hfull
    rw [subtreeSize, numDescendants,
      countVisible_stable g exp n (sizeFuel g) p h1 h2,
      descCount_stable g n (sizeFuel g) p h1 h2,
      countVisible_fullyExpanded g exp n p h1 hfull]

/-- Witness for C2: with the whole demo subtree expanded, the subtree size
of pkg is 1 plus its number of descendants. -/
theorem subtreeSize_spec_witness :
    subtreeSize demoGraph ["pkg", "pkg.a", "pkg.b"] "pkg"
      = 1 + numDescendants demoGraph "pkg" :=
  (subtreeSize_spec demoGraph ["pkg", "pkg.a", "pkg.b"] "pkg" 2
    (by decide) (by decide)).2 (by decide)

theorem mem_setAdd {s : List String} {x y : String} :
    y ∈ setAdd s x ↔ y ∈ s ∨ y = x := by
  unfold setAdd
  by_cases h : x ∈ s
  · rw [if_pos h]
    constructor
    · exact Or.inl
    · rintro (h1 | rfl)
      · exact h1
      · exact h
  · rw [if_neg h]
    simp [List.mem_append]

theorem mem_providerFold (g : Graph) :
    ∀ (l : List String) (acc : List String) (mp : String),
      mp ∈ l.foldl (fun providers pid =>
          let m := providerModulePath g pid
          if m ≠ "" ∧ (findModule g m).isSome then setAdd providers m else providers) acc
      ↔ mp ∈ acc ∨ ∃ pid ∈ l,
          providerModulePath g pid = mp ∧ mp ≠ "" ∧ (findModule g mp).isSome := by
  intro l
  induction l with
  | nil =>
    intro acc mp
    simp
  | cons pid rest ih =>
    intro acc mp
    rw [List.foldl_cons]
    by_cases hcond : providerModulePath g pid ≠ ""
        ∧ (findModule g (providerModulePath g pid)).isSome
    · simp only [if_pos hcond]
      rw [ih]
      constructor
      · rintro (hmem | hrest)
        · rcases mem_setAdd.mp hmem with h1 | rfl
          · exact Or.inl h1
          · exact Or.inr ⟨pid, List.mem_cons_self _ _, rfl, hcond.1, hcond.2⟩
        · rcases hrest with ⟨q, hq, hqs⟩
          exact Or.inr ⟨q, List.mem_cons_of_mem _ hq, hqs⟩
      · rintro (hacc | ⟨q, hq, heq, hne, hsome⟩)
        · exact Or.inl (mem_setAdd.mpr (Or.inl hacc))
        · rcases List.mem_cons.mp hq with rfl | hq2
          · exact Or.inl (mem_setAdd.mpr (Or.inr heq.symm))
          · exact Or.inr ⟨q, hq2, heq, hne, hsome⟩
    · simp only [if_neg hcond]
      rw [ih]
      constructor
      · rintro (hacc | ⟨q, hq, heq, hne, hsome⟩)
        · exact Or.inl hacc
        · exact Or.inr ⟨q, List.mem_cons_of_mem _ hq, heq, hne, hsome⟩
      · rintro (hacc | ⟨q, hq, heq, hne, hsome⟩)
        · exact Or.inl hacc
        · rcases List.mem_cons.mp hq with rfl | hq2
          · exact absurd ⟨heq.symm ▸ hne, heq.symm ▸ hsome⟩ hcond
          · exact Or.inr ⟨q, hq2, heq, hne, hsome⟩

theorem mem_providerModulesForObject (g : Graph) (obj : RawObject) (mp : String) :
    mp ∈ providerModulesForObject g obj ↔
      ∃ pid ∈ obj.providedBy,
        providerModulePath g pid = mp ∧ mp ≠ "" ∧ (findModule g mp).isSome := by
  rw [providerModulesForObject, mem_sortStr, mem_providerFold]
  simp

/-- C8: a raw object whose provider ids resolve to no known module
contributes nothing to the object index: building the index on the
snapshot without that object gives exactly the same searchable list,
signature map and search entries.  Moreover (when the module map has no
empty key, as dotted paths guarantee) a provider id resolves to a module
exactly when it names a known constructor or decorator whose module path
exists in the module map. -/
theorem buildObjectIndex_excludes (g : Graph) (o : RawObject)
    (pre post : List RawObject)
    (hsplit : g.objects = pre ++ o :: post)
    (hnone : providerModulesForObject g o = []) :
    buildObjectIndex ⟨g.modules, g.constructors, g.decorators, pre ++ post⟩
      = buildObjectIndex g
    ∧ (findModule g "" = none → ∀ (obj : RawObject) (mp : String),
        (mp ∈ providerModulesForObject g obj ↔
          ∃ pid ∈ obj.providedBy,
            providerModulePath g pid = mp ∧ (findModule g mp).isSome)) := by
  constructor
  · have hstep : buildObjectIndexStep (⟨g.modules, g.constructors, g.decorators,
        pre ++ post⟩ : Graph) = buildObjectIndexStep g := rfl
    have hskip : ∀ st : ObjectIndex, buildObjectIndexStep g st o = st := by
      intro st
      rw [buildObjectIndexStep]
      simp [hnone]
    simp only [buildObjectIndex, hstep]
    rw [hsplit, List.foldl_append, List.foldl_append, List.foldl_cons, hskip]
  · intro hroot obj mp
    rw [mem_providerModulesForObject]
    constructor
    · rintro ⟨pid, hpid, heq, _, hsome⟩
      exact ⟨pid, hpid, heq, hsome⟩
    · rintro ⟨pid, hpid, heq, hsome⟩
      refine ⟨pid, hpid, heq, ?_, hsome⟩
      intro hmp
      rw [hmp, hroot] at hsome
      exact absurd hsome (by decide)

/-- Witness for C8: removing the unresolvable object of the demo snapshot
leaves the built index unchanged. -/
theorem buildObjectIndex_excludes_witness :
    buildObjectIndex ⟨c8Graph.modules, c8Graph.constructors, c8Graph.decorators,
      [c8ObjGood] ++ []⟩ = buildObjectIndex c8Graph :=
  (buildObjectIndex_excludes c8Graph c8Obj [c8ObjGood] [] (by rfl) (by rfl)).1

theorem mapGet_mapSet_self {α : Type} (m : List (String × α)) (k : String) (v : α) :
    mapGet (mapSet m k v) k = some v := by
  induction m with
  | nil => simp [mapSet, mapGet]
  | cons e rest ih =>
    obtain ⟨k1, v1⟩ := e
    by_cases h : k1 = k
    · simp [mapSet, h, mapGet]
    · simp [mapSet, h, mapGet, ih]

theorem mapGet_mapSet_ne {α : Type} (m : List (String × α)) (k q : String) (v : α)
    (h : k ≠ q) : mapGet (mapSet m k v) q = mapGet m q := by
  induction m with
  | nil => simp [mapSet, mapGet, h]
  | cons e rest ih =>
    obtain ⟨k1, v1⟩ := e
    by_cases h1 : k1 = k
    · subst h1
      simp [mapSet, mapGet, h]
    · by_cases h2 : k1 = q <;> simp [mapSet, mapGet, h1, h2, ih, Ne.symm h]

theorem mapSet_keys {α : Type} (m : List (String × α)) (k : String) (v : α) :
    (mapSet m k v).map Prod.fst =
      if k ∈ m.map Prod.fst then m.map Prod.fst else m.map Prod.fst ++ [k] := by
  induction m with
  | nil => simp [mapSet]
  | cons e rest ih =>
    obtain ⟨k1, v1⟩ := e
    by_cases h : k1 = k
    · subst h
      simp [mapSet]
    · simp only [mapSet, if_neg h, List.map_cons, ih]
      by_cases h2 : k ∈ rest.map Prod.fst
      · rw [if_pos h2, if_pos (List.mem_cons_of_mem _ h2)]
      · rw [if_neg h2, if_neg ?hn]
        case hn =>
          intro hmem
          rcases List.mem_cons.mp hmem with h3 | h3
          · exact h h3.symm
          · exact h2 h3
        rfl

theorem mapSet_keys_nodup {α : Type} {m : List (String × α)} (h : (m.map Prod.fst).Nodup)
    (k : String) (v : α) : ((mapSet m k v).map Prod.fst).Nodup := by
  rw [mapSet_keys]
  by_cases h2 : k ∈ m.map Prod.fst
  · rwa [if_pos h2]
  · rw [if_neg h2]
    simp [List.nodup_append, h, h2]

theorem setAdd_nodup {s : List String} (h : s.Nodup) (x : String) : (setAdd s x).Nodup := by
  unfold setAdd
  by_cases hx : x ∈ s
  · rwa [if_pos hx]
  · rw [if_neg hx]
    simp [List.nodup_append, h, hx]

theorem mem_setUnion : ∀ (xs s : List String) (y : String),
    y ∈ setUnion s xs ↔ y ∈ s ∨ y ∈ xs := by
  intro xs
  induction xs with
  | nil =>
    intro s y
    simp [setUnion]
  | cons x rest ih =>
    intro s y
    rw [show setUnion s (x :: rest) = setUnion (setAdd s x) rest from rfl, ih]
    rw [mem_setAdd]
    simp only [List.mem_cons]
    tauto

theorem setUnion_nodup : ∀ (xs s : List String), s.Nodup → (setUnion s xs).Nodup := by
  intro xs
  induction xs with
  | nil =>
    intro s h
    exact h
  | cons x rest ih =>
    intro s h
    rw [show setUnion s (x :: rest) = setUnion (setAdd s x) rest from rfl]
    exact ih _ (setAdd_nodup h x)

theorem mem_getD_iff (m : List (String × List String)) (k lbl : String) :
    lbl ∈ getD m k [] ↔ ∃ s, mapGet m k = some s ∧ lbl ∈ s := by
  unfold getD
  rcases h : mapGet m k with _ | s <;> simp [h]

theorem mapGet_map_sortStr : ∀ (m : List (String × List String)) (k : String),
    mapGet (m.map (fun e => (e.1, sortStr e.2))) k = (mapGet m k).map sortStr := by
  intro m
  induction m with
  | nil =>
    intro k
    rfl
  | cons e rest ih =>
    intro k
    obtain ⟨k1, v⟩ := e
    by_cases h : k1 = k <;> simp [mapGet, h, ih]

theorem vmdInner_spec (g : Graph) (exp : List String) (fromV : String) :
    ∀ (P : List (String × List String)) (acc : DepsAcc),
      (acc.objs.map Prod.fst).Nodup →
      (∀ k s, mapGet acc.objs k = some s → s.Nodup) →
      ((vmdInner g exp fromV P acc).objs.map Prod.fst).Nodup
      ∧ (∀ k s, mapGet (vmdInner g exp fromV P acc).objs k = some s → s.Nodup)
      ∧ (∀ k, (mapGet (vmdInner g exp fromV P acc).objs k).isSome = true
            ↔ ((mapGet acc.objs k).isSome = true ∨ innerEdgeContrib g exp fromV P k))
      ∧ (∀ k lbl, (∃ s, mapGet (vmdInner g exp fromV P acc).objs k = some s ∧ lbl ∈ s)
            ↔ ((∃ s, mapGet acc.objs k = some s ∧ lbl ∈ s)
               ∨ innerLabelContrib g exp fromV P k lbl)) := by
  intro P
  induction P with
  | nil =>
    intro acc h1 h2
    exact ⟨h1, h2, fun k => by simp [vmdInner, innerEdgeContrib],
      fun k lbl => by simp [vmdInner, innerLabelContrib]⟩
  | cons e rest ih =>
    obtain ⟨provider, objects⟩ := e
    intro acc h1 h2
    by_cases hg : resolveVisible g exp provider = ""
        ∨ resolveVisible g exp provider = ROOT_KEY
        ∨ resolveVisible g exp provider = fromV
    · have hv : vmdInner g exp fromV ((provider, objects) :: rest) acc
          = vmdInner g exp fromV rest acc := by
        simp only [vmdInner]
        rw [if_pos hg]
      rw [hv]
      obtain ⟨j1, j2, j3, j4⟩ := ih acc h1 h2
      refine ⟨j1, j2, ?_, ?_⟩
      · intro k
        rw [j3 k]
        simp only [innerEdgeContrib]
        constructor
        · rintro (hb | hr)
          · exact Or.inl hb
          · exact Or.inr (Or.inr hr)
        · rintro (hb | (⟨hng, _⟩ | hr))
          · exact Or.inl hb
          · exact absurd hg hng
          · exact Or.inr hr
      · intro k lbl
        rw [j4 k lbl]
        simp only [innerLabelContrib]
        constructor
        · rintro (hb | hr)
          · exact Or.inl hb
          · exact Or.inr (Or.inr hr)
        · rintro (hb | (⟨hng, _⟩ | hr))
          · exact Or.inl hb
          · exact absurd hg hng
          · exact Or.inr hr
    · have hv : vmdInner g exp fromV ((provider, objects) :: rest) acc
          = vmdInner g exp fromV rest
            ⟨mapSet acc.deps fromV
               (setAdd (getD acc.deps fromV []) (resolveVisible g exp provider)),
             mapSet acc.objs (fromV ++ "->" ++ resolveVisible g exp provider)
               (setUnion (getD acc.objs (fromV ++ "->" ++ resolveVisible g exp provider) [])
                 objects)⟩ := by
        simp only [vmdInner]
        rw [if_neg hg]
      rw [hv]
      have hobjs : (⟨mapSet acc.deps fromV
            (setAdd (getD acc.deps fromV []) (resolveVisible g exp provider)),
          mapSet acc.objs (fromV ++ "->" ++ resolveVisible g exp provider)
            (setUnion (getD acc.objs (fromV ++ "->" ++ resolveVisible g exp provider) [])
              objects)⟩ : DepsAcc).objs
          = mapSet acc.objs (fromV ++ "->" ++ resolveVisible g exp provider)
              (setUnion (getD acc.objs (fromV ++ "->" ++ resolveVisible g exp provider) [])
                objects) := rfl
      have k1 : ((mapSet acc.objs (fromV ++ "->" ++ resolveVisible g exp provider)
          (setUnion (getD acc.objs (fromV ++ "->" ++ resolveVisible g exp provider) [])
            objects)).map Prod.fst).Nodup := mapSet_keys_nodup h1 _ _
      have k2 : ∀ k s, mapGet (mapSet acc.objs
            (fromV ++ "->" ++ resolveVisible g exp provider)
            (setUnion (getD acc.objs (fromV ++ "->" ++ resolveVisible g exp provider) [])
              objects)) k = some s → s.Nodup := by
        intro k s hks
        by_cases hk : fromV ++ "->" ++ resolveVisible g exp provider = k
        · subst hk
          rw [mapGet_mapSet_self] at hks
          cases hks
          apply setUnion_nodup
          rcases hgd : mapGet acc.objs (fromV ++ "->" ++ resolveVisible g exp provider)
              with _ | s0
          · simp [getD, hgd]
          · simpa [getD, hgd] using h2 _ s0 hgd
        · rw [mapGet_mapSet_ne _ _ _ _ hk] at hks
          exact h2 k s hks
      have hsome1 : ∀ k, (mapGet (mapSet acc.objs
            (fromV ++ "->" ++ resolveVisible g exp provider)
            (setUnion (getD acc.objs (fromV ++ "->" ++ resolveVisible g exp provider) [])
              objects)) k).isSome = true
          ↔ ((mapGet acc.objs k).isSome = true
             ∨ k = fromV ++ "->" ++ resolveVisible g exp provider) := by
        intro k
        by_cases hk : fromV ++ "->" ++ resolveVisible g exp provider = k
        · rw [← hk, mapGet_mapSet_self]
          simp
        · rw [mapGet_mapSet_ne _ _ _ _ hk]
          have hk2 : k ≠ fromV ++ "->" ++ resolveVisible g exp provider := fun hh => hk hh.symm
          simp [hk2]
      have hmem1 : ∀ k lbl, (∃ s, mapGet (mapSet acc.objs
            (fromV ++ "->" ++ resolveVisible g exp provider)
            (setUnion (getD acc.objs (fromV ++ "->" ++ resolveVisible g exp provider) [])
              objects)) k = some s ∧ lbl ∈ s)
          ↔ ((∃ s, mapGet acc.objs k = some s ∧ lbl ∈ s)
             ∨ (k = fromV ++ "->" ++ resolveVisible g exp provider ∧ lbl ∈ objects)) := by
        intro k lbl
        by_cases hk : fromV ++ "->" ++ resolveVisible g exp provider = k
        · rw [← hk, mapGet_mapSet_self]
          constructor
          · rintro ⟨s, hs, hmem⟩
            cases hs
            rcases (mem_setUnion _ _ _).mp hmem with h | h
            · exact Or.inl ((mem_getD_iff _ _ _).mp h)
            · exact Or.inr ⟨rfl, h⟩
          · rintro (⟨s, hs, hmem⟩ | ⟨_, hmem⟩)
            · exact ⟨_, rfl, (mem_setUnion _ _ _).mpr
                (Or.inl ((mem_getD_iff _ _ _).mpr ⟨s, hs, hmem⟩))⟩
            · exact ⟨_, rfl, (mem_setUnion _ _ _).mpr (Or.inr hmem)⟩
        · rw [mapGet_mapSet_ne _ _ _ _ hk]
          constructor
          · exact Or.inl
          · rintro (h | ⟨hkk, _⟩)
            · exact h
            · exact absurd hkk.symm hk
      obtain ⟨j1, j2, j3, j4⟩ := ih _ (hobjs ▸ k1) (hobjs ▸ k2)
      refine ⟨j1, j2, ?_, ?_⟩
      · intro k
        rw [j3 k, hobjs, hsome1 k]
        simp only [innerEdgeContrib]
        constructor
        · rintro ((hb | hkk) | hr)
          · exact Or.inl hb
          · exact Or.inr (Or.inl ⟨hg, hkk⟩)
          · exact Or.inr (Or.inr hr)
        · rintro (hb | (⟨_, hkk⟩ | hr))
          · exact Or.inl (Or.inl hb)
          · exact Or.inl (Or.inr hkk)
          · exact Or.inr hr
      · intro k lbl
        rw [j4 k lbl, hobjs, hmem1 k lbl]
        simp only [innerLabelContrib]
        constructor
        · rintro ((hb | ⟨hkk, hmem⟩) | hr)
          · exact Or.inl hb
          · exact Or.inr (Or.inl ⟨hg, hkk, hmem⟩)
          · exact Or.inr (Or.inr hr)
        · rintro (hb | (⟨_, hkk, hmem⟩ | hr))
          · exact Or.inl (Or.inl hb)
          · exact Or.inl (Or.inr ⟨hkk, hmem⟩)
          · exact Or.inr hr

theorem vmdOuter_spec (g : Graph) (exp : List String) :
    ∀ (mdo : List (String × List (String × List String))) (acc : DepsAcc),
      (acc.objs.map Prod.fst).Nodup →
      (∀ k s, mapGet acc.objs k = some s → s.Nodup) →
      ((vmdOuter g exp mdo acc).objs.map Prod.fst).Nodup
      ∧ (∀ k s, mapGet (vmdOuter g exp mdo acc).objs k = some s → s.Nodup)
      ∧ (∀ k, (mapGet (vmdOuter g exp mdo acc).objs k).isSome = true
            ↔ ((mapGet acc.objs k).isSome = true ∨ edgeContrib g exp mdo k))
      ∧ (∀ k lbl, (∃ s, mapGet (vmdOuter g exp mdo acc).objs k = some s ∧ lbl ∈ s)
            ↔ ((∃ s, mapGet acc.objs k = some s ∧ lbl ∈ s)
               ∨ labelContrib g exp mdo k lbl)) := by
  intro mdo
  induction mdo with
  | nil =>
    intro acc h1 h2
    exact ⟨h1, h2, fun k => by simp [vmdOuter, edgeContrib],
      fun k lbl => by simp [vmdOuter, labelContrib]⟩
  | cons e rest ih =>
    obtain ⟨consumer, providers⟩ := e
    intro acc h1 h2
    by_cases hg : resolveVisible g exp consumer = ""
        ∨ resolveVisible g exp consumer = ROOT_KEY
    · have hv : vmdOuter g exp ((consumer, providers) :: rest) acc
          = vmdOuter g exp rest acc := by
        simp only [vmdOuter]
        rw [if_pos hg]
      rw [hv]
      obtain ⟨j1, j2, j3, j4⟩ := ih acc h1 h2
      refine ⟨j1, j2, ?_, ?_⟩
      · intro k
        rw [j3 k]
        simp only [edgeContrib]
        constructor
        · rintro (hb | hr)
          · exact Or.inl hb
          · exact Or.inr (Or.inr hr)
        · rintro (hb | (⟨hng, _⟩ | hr))
          · exact Or.inl hb
          · exact absurd hg hng
          · exact Or.inr hr
      · intro k lbl
        rw [j4 k lbl]
        simp only [labelContrib]
        constructor
        · rintro (hb | hr)
          · exact Or.inl hb
          · exact Or.inr (Or.inr hr)
        · rintro (hb | (⟨hng, _⟩ | hr))
          · exact Or.inl hb
          · exact absurd hg hng
          · exact Or.inr hr
    · have hv : vmdOuter g exp ((consumer, providers) :: rest) acc
          = vmdOuter g exp rest
              (vmdInner g exp (resolveVisible g exp consumer) providers acc) := by
        simp only [vmdOuter]
        rw [if_neg hg]
      rw [hv]
      obtain ⟨i1, i2, i3, i4⟩ :=
        vmdInner_spec g exp (resolveVisible g exp consumer) providers acc h1 h2
      obtain ⟨j1, j2, j3, j4⟩ := ih _ i1 i2
      refine ⟨j1, j2, ?_, ?_⟩
      · intro k
        rw [j3 k, i3 k]
        simp only [edgeContrib]
        constructor
        · rintro ((hb | hi) | hr)
          · exact Or.inl hb
          · exact Or.inr (Or.inl ⟨hg, hi⟩)
          · exact Or.inr (Or.inr hr)
        · rintro (hb | (⟨_, hi⟩ | hr))
          · exact Or.inl (Or.inl hb)
          · exact Or.inl (Or.inr hi)
          · exact Or.inr hr
      · intro k lbl
        rw [j4 k lbl, i4 k lbl]
        simp only [labelContrib]
        constructor
        · rintro ((hb | hi) | hr)
          · exact Or.inl hb
          · exact Or.inr (Or.inl ⟨hg, hi⟩)
          · exact Or.inr (Or.inr hr)
        · rintro (hb | (⟨_, hi⟩ | hr))
          · exact Or.inl (Or.inl hb)
          · exact Or.inl (Or.inr hi)
          · exact Or.inr hr

/-- C1: in the per-layout aggregation, every pre-pass (consumer, provider)
pair is resolved through the visibility resolver, pairs with equal resolved
endpoints or endpoints resolving to the synthetic root are discarded, and
the label map of the result has each visible edge key exactly once (its
keys are duplicate-free), carrying exactly the union of the label sets of
all underlying module pairs that collapse onto that key, deduplicated and
sorted in code-unit order. -/
theorem visible_aggregation_spec (g : Graph) (exp : List String)
    (mdo : List (String × List (String × List String)))
    (mds : List (String × List String)) :
    ((buildVisibleModuleDeps g exp mdo mds).objects.map Prod.fst).Nodup
    ∧ (∀ k l, mapGet (buildVisibleModuleDeps g exp mdo mds).objects k = some l →
        l.Nodup ∧ l.Sorted strOrd)
    ∧ (∀ k, (mapGet (buildVisibleModuleDeps g exp mdo mds).objects k).isSome = true
        ↔ edgeContrib g exp mdo k)
    ∧ (∀ k lbl,
        (∃ l, mapGet (buildVisibleModuleDeps g exp mdo mds).objects k = some l ∧ lbl ∈ l)
        ↔ labelContrib g exp mdo k lbl) := by
  obtain ⟨j1, j2, j3, j4⟩ := vmdOuter_spec g exp mdo ⟨[], []⟩ (by simp) (by intro k s h; cases h)
  have hobj : (buildVisibleModuleDeps g exp mdo mds).objects
      = (vmdOuter g exp mdo ⟨[], []⟩).objs.map (fun e => (e.1, sortStr e.2)) := rfl
  refine ⟨?_, ?_, ?_, ?_⟩
  · rw [hobj, List.map_map]
    have : (Prod.fst ∘ fun e : String × List String => (e.1, sortStr e.2)) = Prod.fst := by
      funext e
      rfl
    rw [this]
    exact j1
  · intro k l hget
    rw [hobj, mapGet_map_sortStr] at hget
    rcases Option.map_eq_some'.mp hget with ⟨s, hs, rfl⟩
    have hnd : s.Nodup := j2 k s hs
    constructor
    · exact ((List.perm_insertionSort strOrd s).nodup_iff).mpr hnd
    · exact List.sorted_insertionSort strOrd s
  · intro k
    rw [hobj, mapGet_map_sortStr]
    have hiso : ((mapGet (vmdOuter g exp mdo ⟨[], []⟩).objs k).map sortStr).isSome
        = (mapGet (vmdOuter g exp mdo ⟨[], []⟩).objs k).isSome := by
      rcases mapGet (vmdOuter g exp mdo ⟨[], []⟩).objs k with _ | s <;> rfl
    rw [hiso, j3 k]
    simp [mapGet]
  · intro k lbl
    rw [hobj, mapGet_map_sortStr]
    have hstep : (∃ l, (mapGet (vmdOuter g exp mdo ⟨[], []⟩).objs k).map sortStr
          = some l ∧ lbl ∈ l)
        ↔ (∃ s, mapGet (vmdOuter g exp mdo ⟨[], []⟩).objs k = some s ∧ lbl ∈ s) := by
      constructor
      · rintro ⟨l, hl, hmem⟩
        rcases Option.map_eq_some'.mp hl with ⟨s, hs, rfl⟩
        exact ⟨s, hs, mem_sortStr.mp hmem⟩
      · rintro ⟨s, hs, hmem⟩
        exact ⟨sortStr s, by rw [hs]; rfl, mem_sortStr.mpr hmem⟩
    rw [hstep, j4 k lbl]
    simp [mapGet]

/-- Witness for C1: in the demo snapshot with pkg expanded, the recorded
pair (pkg.a, pkg.b) surfaces as the single visible edge key with its label. -/
theorem visible_aggregation_spec_witness :
    ∃ l, mapGet (buildVisibleModuleDeps demoGraph ["pkg"] demoMdo []).objects
        "pkg.a->pkg.b" = some l ∧ "Svc (name=X)" ∈ l := by
  refine ((visible_aggregation_spec demoGraph ["pkg"] demoMdo []).2.2.2
    "pkg.a->pkg.b" "Svc (name=X)").mpr ?_
  left
  refine ⟨by decide, ?_⟩
  left
  exact ⟨by decide, by decide, by decide⟩

/-- C6: search trims and lowercases the query; an empty or whitespace-only
query yields the explicit type-to-search prompt (not the no-matches state);
otherwise the match set is exactly the entries whose precomputed lowercase
search key contains the query as a substring, computed over all entries,
with at most the first 50 matches displayed and the total count reported. -/
theorem renderSearchResults_spec (entries : List SearchEntry) (query : String) :
    (toLowerStr (trimStr query) = "" →
      renderSearchResults entries query = SearchOutcome.prompt
      ∧ SearchOutcome.prompt ≠ SearchOutcome.noMatches)
    ∧ (toLowerStr (trimStr query) ≠ "" →
      ∀ found, found = entries.filter
          (fun e => strContains e.searchKey (toLowerStr (trimStr query))) →
        (∀ e, e ∈ found ↔ e ∈ entries ∧
            strContains e.searchKey (toLowerStr (trimStr query)) = true)
        ∧ (found = [] → renderSearchResults entries query = SearchOutcome.noMatches)
        ∧ (found ≠ [] → renderSearchResults entries query
            = SearchOutcome.results (found.take 50) found.length)
        ∧ (found.take 50).length ≤ 50) := by
  constructor
  · intro hq
    refine ⟨?_, by simp⟩
    simp [renderSearchResults, hq]
  · intro hq found hfound
    refine ⟨?_, ?_, ?_, ?_⟩
    · intro e
      rw [hfound]
      exact List.mem_filter
    · intro hnil
      rw [renderSearchResults, if_neg hq, if_pos]
      rw [← hfound, hnil]
      rfl
    · intro hne
      rw [renderSearchResults, if_neg hq, if_neg, ← hfound]
      rw [← hfound]
      simpa [List.isEmpty_iff] using hne
    · rw [List.length_take]
      exact min_le_left _ _

/-- Witness for C6: searching Fo over the Foo / Bar entries returns exactly
the Foo entry, and a whitespace-only query yields the prompt state. -/
theorem renderSearchResults_spec_witness :
    renderSearchResults demoEntries "Fo" = SearchOutcome.results [fooEntry] 1
    ∧ renderSearchResults demoEntries "  " = SearchOutcome.prompt := by
  constructor
  · exact ((renderSearchResults_spec demoEntries "Fo").2 (by decide) [fooEntry]
      (by decide)).2.2.1 (by decide)
  · exact ((renderSearchResults_spec demoEntries "  ").1 (by decide)).1

/-- C9: pushHistory is a no-op while the locked flag is set, and when the
stack top has the same selection as the new snapshot; hence two
back-to-back pushes with identical selection leave at most one new entry.
popHistory removes and returns the most recent entry and returns none
without modifying anything on an empty stack. -/
theorem history_spec (st : HistoryState) (s1 s2 : ViewSnapshot) :
    (st.locked = true → pushHistory st s1 = st)
    ∧ (st.locked = false → ∀ last, st.history.getLast? = some last →
        last.selectedId = s1.selectedId → pushHistory st s1 = st)
    ∧ (st.locked = false → s1.selectedId = s2.selectedId →
        pushHistory (pushHistory st s1) s2 = pushHistory st s1)
    ∧ (st.history = [] → popHistory st = (none, st))
    ∧ (∀ rest x, st.history = rest ++ [x] → popHistory st = (some x, ⟨rest, st.locked⟩)) := by
  refine ⟨?_, ?_, ?_, ?_, ?_⟩
  · intro h
    simp [pushHistory, h]
  · intro h last hlast hsel
    simp [pushHistory, h, hlast, hsel]
  · intro h hsel
    rcases hlast : st.history.getLast? with _ | last
    · have h1 : pushHistory st s1 = ⟨st.history ++ [s1], st.locked⟩ := by
        simp [pushHistory, h, hlast]
      rw [h1]
      simp [pushHistory, h, List.getLast?_concat, hsel]
    · by_cases hs : last.selectedId = s1.selectedId
      · have h1 : pushHistory st s1 = st := by
          simp [pushHistory, h, hlast, hs]
        have hs2 : last.selectedId = s2.selectedId := hs.trans hsel
        rw [h1]
        simp [pushHistory, h, hlast, hs2]
      · have h1 : pushHistory st s1 = ⟨st.history ++ [s1], st.locked⟩ := by
          simp [pushHistory, h, hlast, hs]
        rw [h1]
        simp [pushHistory, h, List.getLast?_concat, hsel]
  · intro h
    simp [popHistory, h]
  · intro rest x h
    simp [popHistory, h, List.getLast?_concat, List.dropLast_concat]

/-- Witness for C9: concrete double push with equal selection and pop of
the empty stack. -/
theorem history_spec_witness :
    pushHistory (pushHistory hist0 snapA) snapB = pushHistory hist0 snapA
    ∧ popHistory hist0 = (none, hist0) :=
  ⟨(history_spec hist0 snapA snapB).2.2.1 rfl rfl,
   (history_spec hist0 snapA snapB).2.2.2.1 rfl⟩

/-- C10: a dependency reference with a non-empty group and a type starting
with the slice prefix computes its identity signature from the type with
the prefix removed (so it matches the element-typed object), while the
display label keeps the original slice-prefixed type; every other reference
uses the type unchanged in its signature. -/
theorem signatureForRef_spec (ref : RefInput) :
    (ref.group ≠ "" → strStartsWith ref.type "[]" = true →
      signatureForRef ref = objectSignature (strDrop ref.type 2) ref.name ref.group
      ∧ strStartsWith (formatObject ref.type ref.name ref.group) ref.type = true)
    ∧ (¬(ref.group ≠ "" ∧ strStartsWith ref.type "[]" = true) →
      signatureForRef ref = objectSignature ref.type ref.name ref.group) := by
  constructor
  · intro hg hsw
    constructor
    · simp [signatureForRef, hg, hsw]
    · have hne : ref.type ≠ "" := by
        intro h
        rw [h] at hsw
        exact absurd hsw (by decide)
      rw [formatObject]
      simp only [if_neg hne]
      by_cases hnm : ref.name = "" <;> by_cases hgr : ref.group = ""
      · rw [if_pos hnm, if_pos hgr]
        exact strStartsWith_self ref.type
      · rw [if_pos hnm, if_neg hgr]
        refine strStartsWith_of_prefix ref.type _ ?_
        simp only [String.data_append, List.append_assoc]
        exact List.prefix_append _ _
      · rw [if_neg hnm, if_pos hgr]
        refine strStartsWith_of_prefix ref.type _ ?_
        simp only [String.data_append, List.append_assoc]
        exact List.prefix_append _ _
      · rw [if_neg hnm, if_neg hgr]
        refine strStartsWith_of_prefix ref.type _ ?_
        simp only [String.data_append, List.append_assoc]
        exact List.prefix_append _ _
  · intro hng
    rw [signatureForRef]
    rcases Decidable.not_and_iff_or_not.mp hng with h | h
    · simp at h
      simp [h]
    · simp only [Bool.not_eq_true] at h
      simp [h]

theorem mapSet_fresh {α : Type} : ∀ (m : List (String × α)) (k : String) (v : α),
    k ∉ m.map Prod.fst → mapSet m k v = m ++ [(k, v)] := by
  intro m
  induction m with
  | nil =>
    intro k v _
    rfl
  | cons e rest ih =>
    intro k v h
    obtain ⟨k1, v1⟩ := e
    simp only [List.map_cons, List.mem_cons] at h
    push_neg at h
    rw [mapSet, if_neg (fun hh => h.1 hh.symm), ih k v h.2]
    rfl

theorem mapGet_eq_some_of_mem {α : Type} : ∀ (m : List (String × α)) (k : String) (v : α),
    (m.map Prod.fst).Nodup → (k, v) ∈ m → mapGet m k = some v := by
  intro m
  induction m with
  | nil =>
    intro k v _ h
    cases h
  | cons e rest ih =>
    intro k v hnd hmem
    obtain ⟨k1, v1⟩ := e
    simp only [List.map_cons, List.nodup_cons] at hnd
    rcases List.mem_cons.mp hmem with heq | h2
    · cases heq
      simp [mapGet]
    · have hk : k1 ≠ k := by
        intro hh
        subst hh
        exact hnd.1 (List.mem_map_of_mem Prod.fst h2)
      simp [mapGet, hk, ih _ _ hnd.2 h2]

theorem mem_of_mapGet {α : Type} : ∀ (m : List (String × α)) (k : String) (v : α),
    mapGet m k = some v → (k, v) ∈ m := by
  intro m
  induction m with
  | nil =>
    intro k v h
    cases h
  | cons e rest ih =>
    intro k v h
    obtain ⟨k1, v1⟩ := e
    rw [mapGet] at h
    by_cases hk : k1 = k
    · rw [if_pos hk] at h
      cases h
      subst hk
      exact List.mem_cons_self _ _
    · rw [if_neg hk] at h
      exact List.mem_cons_of_mem _ (ih _ _ h)

theorem mem_zip_map {α β : Type} (f : α → β) : ∀ (l : List α) (x : α) (y : β),
    (x, y) ∈ l.zip (l.map f) → x ∈ l ∧ y = f x := by
  intro l
  induction l with
  | nil =>
    intro x y h
    cases h
  | cons a rest ih =>
    intro x y h
    simp only [List.map_cons, List.zip_cons_cons] at h
    rcases List.mem_cons.mp h with heq | h2
    · cases heq
      exact ⟨List.mem_cons_self _ _, rfl⟩
    · obtain ⟨h3, h4⟩ := ih x y h2
      exact ⟨List.mem_cons_of_mem _ h3, h4⟩

theorem placeRun_corr (g : Graph) (exp : List String) :
    ∀ (fuel : Nat) (pairs : List (String × Nat)) (parent : String) (depth : Nat)
      (cursor : Rat) (acc : LayoutAcc),
      ((runPlaces g exp fuel pairs depth cursor).map Prod.fst).Nodup →
      (∀ k, k ∈ (runPlaces g exp fuel pairs depth cursor).map Prod.fst →
        k ∉ acc.positions.map Prod.fst) →
      placeRun g exp fuel pairs parent depth cursor acc =
        ⟨acc.positions ++ runPlaces g exp fuel pairs depth cursor,
         acc.edges ++ runEdges g exp fuel pairs parent⟩ := by
  intro fuel
  induction fuel with
  | zero =>
    intro pairs parent depth cursor acc _ _
    simp [placeRun, runPlaces, runEdges]
  | succ fuel ih =>
    intro pairs parent depth cursor acc hnd hfresh
    rcases pairs with _ | ⟨⟨c, sz⟩, rest⟩
    · simp [placeRun, runPlaces, runEdges]
    · by_cases hc : c ∈ exp
      · simp only [runPlaces, if_pos hc, List.map_cons, List.map_append,
          List.nodup_cons, List.nodup_append, List.mem_append] at hnd
        have hheadnot := hnd.1
        have hndsub := hnd.2.1
        have hndrest := hnd.2.2.1
        have hdisj := hnd.2.2.2
        push_neg at hheadnot
        have hfresh2 : ∀ k, (k = c
            ∨ (k ∈ (runPlaces g exp fuel
                ((sortStr (childrenOf g c)).zip
                  ((sortStr (childrenOf g c)).map (subtreeSize g exp)))
                (depth + 1)
                (cursor + (sz : Rat) / 2 -
                  ((((sortStr (childrenOf g c)).map (subtreeSize g exp)).sum : Nat) : Rat) / 2)).map
                Prod.fst
              ∨ k ∈ (runPlaces g exp fuel rest depth (cursor + (sz : Rat))).map Prod.fst)) →
            k ∉ acc.positions.map Prod.fst := by
          intro k hk
          apply hfresh
          simp only [runPlaces, if_pos hc, List.map_cons, List.map_append, List.mem_cons,
            List.mem_append]
          exact hk
        simp only [placeRun, runPlaces, runEdges, if_pos hc]
        rw [mapSet_fresh acc.positions c _ (hfresh2 c (Or.inl rfl))]
        rw [ih _ _ _ _ _ hndsub ?freshsub]
        case freshsub =>
          intro k hk
          intro hcontra
          rw [List.map_append] at hcontra
          rcases List.mem_append.mp hcontra with h1 | h2
          · exact hfresh2 k (Or.inr (Or.inl hk)) h1
          · simp only [List.map_cons, List.map_nil, List.mem_singleton] at h2
            exact hheadnot.1 (h2 ▸ hk)
        rw [ih _ _ _ _ _ hndrest ?freshrest]
        case freshrest =>
          intro k hk
          intro hcontra
          rw [List.map_append, List.map_append] at hcontra
          rcases List.mem_append.mp hcontra with h1 | h2
          · rcases List.mem_append.mp h1 with h3 | h4
            · exact hfresh2 k (Or.inr (Or.inr hk)) h3
            · simp only [List.map_cons, List.map_nil, List.mem_singleton] at h4
              exact hheadnot.2 (h4 ▸ hk)
          · exact hdisj h2 hk
        simp [List.append_assoc]
      · simp only [runPlaces, if_neg hc, List.map_cons, List.nodup_cons] at hnd
        simp only [List.nil_append] at hnd
        have hfresh2 : ∀ k, (k = c
            ∨ k ∈ (runPlaces g exp fuel rest depth (cursor + (sz : Rat))).map Prod.fst) →
            k ∉ acc.positions.map Prod.fst := by
          intro k hk
          apply hfresh
          simp only [runPlaces, if_neg hc, List.map_cons, List.mem_cons, List.nil_append]
          exact hk
        simp only [placeRun, runPlaces, runEdges, if_neg hc]
        rw [mapSet_fresh acc.positions c _ (hfresh2 c (Or.inl rfl))]
        rw [ih _ _ _ _ _ hnd.2 ?freshrest2]
        case freshrest2 =>
          intro k hk
          intro hcontra
          rw [List.map_append] at hcontra
          rcases List.mem_append.mp hcontra with h1 | h2
          · exact hfresh2 k (Or.inr hk) h1
          · simp only [List.map_cons, List.map_nil, List.mem_singleton] at h2
            exact hnd.1 (h2 ▸ hk)
        simp [List.append_assoc]

theorem runPlaces_heads (g : Graph) (exp : List String) :
    ∀ (fuel : Nat) (pairs : List (String × Nat)) (depth : Nat) (cursor : Rat),
      placeOk g exp fuel pairs = true →
      List.Forall₂
        (fun c yc => (c, (⟨depth + 1, yc⟩ : Pos)) ∈ runPlaces g exp fuel pairs depth cursor)
        (pairs.map Prod.fst) (childCenters cursor (pairs.map Prod.snd)) := by
  intro fuel
  induction fuel with
  | zero =>
    intro pairs depth cursor hok
    have hnil : pairs = [] := List.isEmpty_iff.mp hok
    subst hnil
    simp [childCenters]
  | succ fuel ih =>
    intro pairs depth cursor hok
    rcases pairs with _ | ⟨⟨c, sz⟩, rest⟩
    · simp [childCenters]
    · simp only [placeOk, Bool.and_eq_true] at hok
      simp only [List.map_cons, childCenters]
      rw [List.forall₂_cons]
      constructor
      · simp [runPlaces]
      · have hrest := ih rest depth (cursor + (sz : Rat)) hok.2
        refine hrest.imp ?_
        intro a b hmem
        simp only [runPlaces]
        exact List.mem_cons_of_mem _ (List.mem_append_right _ hmem)

theorem runPlaces_mem_structure (g : Graph) (exp : List String) :
    ∀ (fuel : Nat) (pairs : List (String × Nat)) (depth : Nat) (cursor : Rat)
      (m : String) (pos : Pos),
      (m, pos) ∈ runPlaces g exp fuel pairs depth cursor →
      (∃ sz, (m, sz) ∈ pairs) ∨ ∃ q, q ∈ exp ∧ m ∈ childrenOf g q := by
  intro fuel
  induction fuel with
  | zero =>
    intro pairs depth cursor m pos h
    simp [runPlaces] at h
  | succ fuel ih =>
    intro pairs depth cursor m pos h
    rcases pairs with _ | ⟨⟨c, sz⟩, rest⟩
    · simp [runPlaces] at h
    · simp only [runPlaces] at h
      rcases List.mem_cons.mp h with heq | h2
      · cases heq
        exact Or.inl ⟨sz, List.mem_cons_self _ _⟩
      · rcases List.mem_append.mp h2 with hsub | hrest
        · by_cases hc : c ∈ exp
          · rw [if_pos hc] at hsub
            rcases ih _ _ _ m pos hsub with ⟨sz2, hmem⟩ | hq
            · right
              refine ⟨c, hc, ?_⟩
              exact mem_sortStr.mp (mem_zip_map _ _ _ _ hmem).1
            · exact Or.inr hq
          · rw [if_neg hc] at hsub
            cases hsub
        · rcases ih _ _ _ m pos hrest with ⟨sz2, hmem⟩ | hq
          · exact Or.inl ⟨sz2, List.mem_cons_of_mem _ hmem⟩
          · exact Or.inr hq

theorem runPlaces_span (g : Graph) (exp : List String) :
    ∀ (fuel : Nat) (pairs : List (String × Nat)) (depth : Nat) (cursor : Rat),
      placeOk g exp fuel pairs = true →
      (∀ p ∈ pairs, p.2 = subtreeSize g exp p.1) →
      ∀ (m : String) (dm : Nat) (ym : Rat),
        (m, (⟨dm, ym⟩ : Pos)) ∈ runPlaces g exp fuel pairs depth cursor →
        m ∈ exp →
        List.Forall₂
          (fun c yc => (c, (⟨dm + 1, yc⟩ : Pos)) ∈ runPlaces g exp fuel pairs depth cursor)
          (sortStr (childrenOf g m))
          (childCenters
            (ym - ((((sortStr (childrenOf g m)).map (subtreeSize g exp)).sum : Nat) : Rat) / 2)
            ((sortStr (childrenOf g m)).map (subtreeSize g exp))) := by
  intro fuel
  induction fuel with
  | zero =>
    intro pairs depth cursor hok _ m dm ym hmem _
    have hnil : pairs = [] := List.isEmpty_iff.mp hok
    subst hnil
    simp [runPlaces] at hmem
  | succ fuel ih =>
    intro pairs depth cursor hok hsz m dm ym hmem hmexp
    rcases pairs with _ | ⟨⟨c, sz⟩, rest⟩
    · simp [runPlaces] at hmem
    · simp only [placeOk, Bool.and_eq_true] at hok
      have hszc : sz = subtreeSize g exp c := hsz (c, sz) (List.mem_cons_self _ _)
      simp only [runPlaces] at hmem
      rcases List.mem_cons.mp hmem with heq | h2
      · -- m is the child placed at the head
        cases heq
        -- now the head child is m, dm = depth + 1, ym = cursor + sz / 2
        subst hszc
        have hokc := hok.1
        rw [if_pos hmexp] at hokc
        have hheads := runPlaces_heads g exp fuel
          ((sortStr (childrenOf g m)).zip ((sortStr (childrenOf g m)).map (subtreeSize g exp)))
          (depth + 1)
          (cursor + ((subtreeSize g exp m : Nat) : Rat) / 2 -
            ((((sortStr (childrenOf g m)).map (subtreeSize g exp)).sum : Nat) : Rat) / 2)
          hokc
        rw [List.map_fst_zip _ _ (by simp), List.map_snd_zip _ _ (by simp)] at hheads
        refine hheads.imp ?_
        intro a b hmem2
        simp only [runPlaces, if_pos hmexp]
        exact List.mem_cons_of_mem _ (List.mem_append_left _ hmem2)
      · rcases List.mem_append.mp h2 with hsub | hrest
        · by_cases hc : c ∈ exp
          · rw [if_pos hc] at hsub
            have hokc := hok.1
            rw [if_pos hc] at hokc
            have hszsub : ∀ p ∈ (sortStr (childrenOf g c)).zip
                ((sortStr (childrenOf g c)).map (subtreeSize g exp)),
                p.2 = subtreeSize g exp p.1 := by
              rintro ⟨a, b⟩ hp
              exact (mem_zip_map _ _ _ _ hp).2
            have := ih _ _ _ hokc hszsub m dm ym hsub hmexp
            refine this.imp ?_
            intro a b hmem2
            simp only [runPlaces, if_pos hc]
            exact List.mem_cons_of_mem _ (List.mem_append_left _ hmem2)
          · rw [if_neg hc] at hsub
            cases hsub
        · have := ih rest depth (cursor + (sz : Rat)) hok.2
            (fun p hp => hsz p (List.mem_cons_of_mem _ hp)) m dm ym hrest hmexp
          refine this.imp ?_
          intro a b hmem2
          simp only [runPlaces]
          exact List.mem_cons_of_mem _ (List.mem_append_right _ hmem2)

theorem runEdges_depth (g : Graph) (exp : List String) :
    ∀ (fuel : Nat) (pairs : List (String × Nat)) (parent : String) (depth : Nat)
      (cursor : Rat) (q c : String),
      (q, c) ∈ runEdges g exp fuel pairs parent →
      (q = parent ∧ ∃ yc, (c, (⟨depth + 1, yc⟩ : Pos)) ∈ runPlaces g exp fuel pairs depth cursor)
      ∨ (∃ dq yq yc, (q, (⟨dq, yq⟩ : Pos)) ∈ runPlaces g exp fuel pairs depth cursor
          ∧ (c, (⟨dq + 1, yc⟩ : Pos)) ∈ runPlaces g exp fuel pairs depth cursor) := by
  intro fuel
  induction fuel with
  | zero =>
    intro pairs parent depth cursor q c h
    simp [runEdges] at h
  | succ fuel ih =>
    intro pairs parent depth cursor q c h
    rcases pairs with _ | ⟨⟨c0, sz⟩, rest⟩
    · simp [runEdges] at h
    · simp only [runEdges] at h
      rcases List.mem_cons.mp h with heq | h2
      · cases heq
        left
        refine ⟨rfl, cursor + (sz : Rat) / 2, ?_⟩
        simp only [runPlaces]
        exact List.mem_cons_self _ _
      · rcases List.mem_append.mp h2 with hsub | hrest
        · by_cases hc : c0 ∈ exp
          · rw [if_pos hc] at hsub
            rcases ih _ c0 (depth + 1)
                (cursor + (sz : Rat) / 2 -
                  ((((sortStr (childrenOf g c0)).map (subtreeSize g exp)).sum : Nat) : Rat) / 2)
                q c hsub with ⟨hq, yc, hcmem⟩ | ⟨dq, yq, yc, hqmem, hcmem⟩
            · right
              refine ⟨depth + 1, cursor + (sz : Rat) / 2, yc, ?_, ?_⟩
              · subst hq
                simp only [runPlaces]
                exact List.mem_cons_self _ _
              · simp only [runPlaces, if_pos hc]
                exact List.mem_cons_of_mem _ (List.mem_append_left _ hcmem)
            · right
              refine ⟨dq, yq, yc, ?_, ?_⟩
              · simp only [runPlaces, if_pos hc]
                exact List.mem_cons_of_mem _ (List.mem_append_left _ hqmem)
              · simp only [runPlaces, if_pos hc]
                exact List.mem_cons_of_mem _ (List.mem_append_left _ hcmem)
          · rw [if_neg hc] at hsub
            cases hsub
        · rcases ih rest parent depth (cursor + (sz : Rat)) q c hrest
              with ⟨hq, yc, hcmem⟩ | ⟨dq, yq, yc, hqmem, hcmem⟩
          · left
            refine ⟨hq, yc, ?_⟩
            simp only [runPlaces]
            exact List.mem_cons_of_mem _ (List.mem_append_right _ hcmem)
          · right
            refine ⟨dq, yq, yc, ?_, ?_⟩
            · simp only [runPlaces]
              exact List.mem_cons_of_mem _ (List.mem_append_right _ hqmem)
            · simp only [runPlaces]
              exact List.mem_cons_of_mem _ (List.mem_append_right _ hcmem)

theorem layoutTree_eq (g : Graph) (exp : List String)
    (hnd : ((layoutPlaces g exp).map Prod.fst).Nodup) :
    (layoutTree g exp).positions = layoutPlaces g exp
    ∧ (layoutTree g exp).edges = layoutEdgesSpec g exp := by
  have hnd2 := hnd
  simp only [layoutPlaces, List.map_cons, List.nodup_cons] at hnd2
  have hcorr := placeRun_corr g exp (layoutFuel g)
    ((rootsOf g).zip ((rootsOf g).map (subtreeSize g exp))) ROOT_KEY 0
    (-(((((rootsOf g).map (subtreeSize g exp)).sum : Nat) : Rat) / 2))
    (⟨[(ROOT_KEY, (⟨0, 0⟩ : Pos))], []⟩ : LayoutAcc) hnd2.2 ?fresh
  case fresh =>
    intro k hk
    simp only [List.map_cons, List.map_nil, List.mem_cons, List.not_mem_nil]
    push_neg
    refine ⟨?_, fun h => h⟩
    intro hkr
    exact hnd2.1 (hkr ▸ hk)
  constructor
  · rw [show layoutTree g exp = placeRun g exp (layoutFuel g)
        ((rootsOf g).zip ((rootsOf g).map (subtreeSize g exp))) ROOT_KEY 0
        (-(((((rootsOf g).map (subtreeSize g exp)).sum : Nat) : Rat) / 2))
        (⟨[(ROOT_KEY, (⟨0, 0⟩ : Pos))], []⟩ : LayoutAcc) from rfl, hcorr]
    rfl
  · rw [show layoutTree g exp = placeRun g exp (layoutFuel g)
        ((rootsOf g).zip ((rootsOf g).map (subtreeSize g exp))) ROOT_KEY 0
        (-(((((rootsOf g).map (subtreeSize g exp)).sum : Nat) : Rat) / 2))
        (⟨[(ROOT_KEY, (⟨0, 0⟩ : Pos))], []⟩ : LayoutAcc) from rfl, hcorr]
    rfl

theorem mem_rootsOf (g : Graph) (m : String) (h : m ∈ rootsOf g) :
    parentOf g m = "" ∨ (findModule g (parentOf g m)).isNone = true := by
  rw [rootsOf, mem_sortStr] at h
  have h2 := List.of_mem_filter h
  rcases Bool.or_eq_true _ _ |>.mp h2 with h3 | h3
  · exact Or.inl (by simpa using h3)
  · exact Or.inr h3

theorem mem_childrenOf (g : Graph) (q m : String) (h : m ∈ childrenOf g q) :
    ∃ info, mapGet g.modules q = some info ∧ m ∈ info.children := by
  rw [childrenOf, findModule] at h
  rcases hget : mapGet g.modules q with _ | info
  · rw [hget] at h
    cases h
  · rw [hget] at h
    exact ⟨info, rfl, by simpa using h⟩

/-- C5: in the layout output, (a) every structural edge connects a parent
to a child whose depth is exactly one greater; (b) every placed expanded
module has its sorted children placed at the next depth on contiguous
spans proportional to their subtree sizes, starting at the parent center
minus half the total size (so the parent center is the midpoint of the
combined span); and (c) a module whose real parent module is not expanded
is absent from the positions map entirely.  Hypotheses: duplicate-free
placement keys and the fuel-sufficiency flag placeOk (both consequences of
the forest invariant), the parent-pointer consistency of the snapshot, and
the synthetic root not being a real module. -/
theorem layoutTree_spec (g : Graph) (exp : List String)
    (hnd : ((layoutPlaces g exp).map Prod.fst).Nodup)
    (hok : placeOk g exp (layoutFuel g)
      ((rootsOf g).zip ((rootsOf g).map (subtreeSize g exp))) = true)
    (hpc : g.modules.all
      (fun e => e.2.children.all (fun child => parentOf g child == e.1)) = true)
    (hrm : findModule g ROOT_KEY = none) :
    (∀ q c, (q, c) ∈ (layoutTree g exp).edges →
       ∀ pq pc, mapGet (layoutTree g exp).positions q = some pq →
         mapGet (layoutTree g exp).positions c = some pc → pc.x = pq.x + 1)
    ∧ (∀ m d ym, mapGet (layoutTree g exp).positions m = some ⟨d, ym⟩ → m ∈ exp →
        List.Forall₂
          (fun c yc => mapGet (layoutTree g exp).positions c = some ⟨d + 1, yc⟩)
          (sortStr (childrenOf g m))
          (childCenters
            (ym - ((((sortStr (childrenOf g m)).map (subtreeSize g exp)).sum : Nat) : Rat) / 2)
            ((sortStr (childrenOf g m)).map (subtreeSize g exp)))
        ∧ ((ym - ((((sortStr (childrenOf g m)).map (subtreeSize g exp)).sum : Nat) : Rat) / 2)
            + (ym + ((((sortStr (childrenOf g m)).map (subtreeSize g exp)).sum : Nat) : Rat) / 2))
            / 2 = ym)
    ∧ (∀ m q, parentOf g m = q → q ≠ "" → (findModule g q).isSome = true → q ∉ exp →
        mapGet (layoutTree g exp).positions m = none) := by
  obtain ⟨hpos, hedg⟩ := layoutTree_eq g exp hnd
  have hmemGet : ∀ (m : String) (pos : Pos), (m, pos) ∈ layoutPlaces g exp →
      mapGet (layoutTree g exp).positions m = some pos := by
    intro m pos hmem
    rw [hpos]
    exact mapGet_eq_some_of_mem _ _ _ hnd hmem
  have hliftRun : ∀ (m : String) (pos : Pos),
      (m, pos) ∈ runPlaces g exp (layoutFuel g)
        ((rootsOf g).zip ((rootsOf g).map (subtreeSize g exp))) 0
        (-(((((rootsOf g).map (subtreeSize g exp)).sum : Nat) : Rat) / 2)) →
      (m, pos) ∈ layoutPlaces g exp := by
    intro m pos hmem
    rw [layoutPlaces]
    exact List.mem_cons_of_mem _ hmem
  refine ⟨?_, ?_, ?_⟩
  · intro q c hedge pq pc hq hc
    rw [hedg] at hedge
    rcases runEdges_depth g exp (layoutFuel g) _ ROOT_KEY 0
        (-(((((rootsOf g).map (subtreeSize g exp)).sum : Nat) : Rat) / 2)) q c hedge
        with ⟨hqr, yc, hcmem⟩ | ⟨dq, yq, yc, hqmem, hcmem⟩
    · have hq0 : mapGet (layoutTree g exp).positions q = some ⟨0, 0⟩ := by
        subst hqr
        apply hmemGet
        rw [layoutPlaces]
        exact List.mem_cons_self _ _
      have hc1 := hmemGet c ⟨0 + 1, yc⟩ (hliftRun _ _ hcmem)
      rw [hq0] at hq
      rw [hc1] at hc
      cases hq
      cases hc
      rfl
    · have hq1 := hmemGet q ⟨dq, yq⟩ (hliftRun _ _ hqmem)
      have hc1 := hmemGet c ⟨dq + 1, yc⟩ (hliftRun _ _ hcmem)
      rw [hq1] at hq
      rw [hc1] at hc
      cases hq
      cases hc
      rfl
  · intro m d ym hm hmexp
    have hmem : (m, (⟨d, ym⟩ : Pos)) ∈ layoutPlaces g exp := by
      rw [hpos] at hm
      exact mem_of_mapGet _ _ _ hm
    rw [layoutPlaces] at hmem
    rcases List.mem_cons.mp hmem with heq | hrun
    · -- m is the synthetic root: it has no module record, hence no children
      have hm0 : m = ROOT_KEY := by
        cases heq
        rfl
      have hch : childrenOf g m = [] := by
        rw [hm0, childrenOf, hrm]
        rfl
      constructor
      · rw [hch]
        rw [show sortStr ([] : List String) = [] from rfl]
        simp [childCenters]
      · ring
    · constructor
      · have hszcond : ∀ p ∈ (rootsOf g).zip ((rootsOf g).map (subtreeSize g exp)),
            p.2 = subtreeSize g exp p.1 := by
          rintro ⟨a, b⟩ hp
          exact (mem_zip_map _ _ _ _ hp).2
        have hspan := runPlaces_span g exp (layoutFuel g) _ 0
          (-(((((rootsOf g).map (subtreeSize g exp)).sum : Nat) : Rat) / 2))
          hok hszcond m d ym hrun hmexp
        refine hspan.imp ?_
        intro a b hmem2
        exact hmemGet a ⟨d + 1, b⟩ (hliftRun _ _ hmem2)
      · ring
  · intro m q hpar hqne hqsome hqexp
    rcases hget : mapGet (layoutTree g exp).positions m with _ | pos
    · rfl
    · exfalso
      have hmem : (m, pos) ∈ layoutPlaces g exp := by
        rw [hpos] at hget
        exact mem_of_mapGet _ _ _ hget
      rw [layoutPlaces] at hmem
      rcases List.mem_cons.mp hmem with heq | hrun
      · -- m would be the synthetic root, which has no parent record
        have hm0 : m = ROOT_KEY := by
          cases heq
          rfl
        rw [hm0, parentOf, findModule, show mapGet g.modules ROOT_KEY
            = none from hrm] at hpar
        exact hqne hpar.symm
      · rcases runPlaces_mem_structure g exp (layoutFuel g) _ 0 _ m pos hrun
            with ⟨sz, hzip⟩ | ⟨q2, hq2exp, hq2child⟩
        · have hroot : m ∈ rootsOf g := (List.of_mem_zip hzip).1
          rcases mem_rootsOf g m hroot with h1 | h1
          · rw [hpar] at h1
            exact hqne h1
          · rw [hpar, findModule] at h1
            rw [findModule] at hqsome
            rw [Option.isNone_iff_eq_none.mp h1] at hqsome
            cases hqsome
        · obtain ⟨info, hinfo, hmchild⟩ := mem_childrenOf g q2 m hq2child
          have hentry : (q2, info) ∈ g.modules := mem_of_mapGet _ _ _ hinfo
          have hall := List.all_eq_true.mp hpc (q2, info) hentry
          have hres := List.all_eq_true.mp hall m hmchild
          have hq2 : parentOf g m = q2 := by
            simpa using hres
          rw [hpar] at hq2
          subst hq2
          exact hqexp hq2exp

/-- Witness for C5: with nothing expanded in the demo graph, the child
pkg.a of the collapsed module pkg is absent from the positions map. -/
theorem layoutTree_spec_witness :
    mapGet (layoutTree demoGraph []).positions "pkg.a" = none :=
  (layoutTree_spec demoGraph [] (by decide) (by decide) (by decide)
    (by decide)).2.2 "pkg.a" "pkg" (by decide) (by decide) (by decide) (by decide)

/-- Witness for C10 at a concrete slice-typed group reference and a plain
reference. -/
theorem signatureForRef_spec_witness :
    signatureForRef demoSliceRef = objectSignature (strDrop "[]Svc" 2) "" "grp"
    ∧ signatureForRef demoPlainRef = objectSignature "Svc" "x" "" := by
  constructor
  · exact ((signatureForRef_spec demoSliceRef).1 (by decide) (by decide)).1
  · exact (signatureForRef_spec demoPlainRef).2 (by decide)

end HiveUI
